import Mathlib

/-!
Verification of the RAGCV adaptive hybrid retrieval engine and context
assembler against its natural-language specification.

The Python sources embedded here:
  * `src/src/utils/context.py` — context assembler (namespace `Ctx`)
  * `src/backend/ragcv/retrieval/retrieval.py` — adaptive retriever
    (namespace `Retr`)
  * `src/backend/ragcv/spec/models.py` — validated retrieval configuration
    (namespace `Cfg`)
  * `src/backend/ragcv/retrieval/enricher.py` context — the cross-encoder
    max-pool rerank strategy is absent from the sources and is modelled
    from the spec (namespace `Rerank`).

Python floats are embedded as exact rationals (`ℚ`); cosine similarities,
which involve square roots, live in `ℝ`.  Python `id(doc)` object identity
is embedded as a `docId : Nat` field: distinct runtime objects carry
distinct ids and the same object always carries the same id.
-/

namespace RagCV

/-! ### Stable descending sort

Python's `list.sort(key=..., reverse=True)` is a stable sort placing larger
keys first; equal-key elements keep their original relative order.  We embed
it as an insertion sort (`foldr`-style) that inserts each element in front of
the first already-placed element whose key is `≤` its own, which yields
exactly the stable descending order. -/

def insertDescBy {α : Type} (key : α → ℚ) (x : α) : List α → List α
  | [] => [x]
  | y :: ys => if key y ≤ key x then x :: y :: ys else y :: insertDescBy key x ys

def sortDescBy {α : Type} (key : α → ℚ) : List α → List α
  | [] => []
  | x :: xs => insertDescBy key x (sortDescBy key xs)

theorem mem_insertDescBy {α : Type} (key : α → ℚ) (x : α) (l : List α) :
    ∀ z ∈ insertDescBy key x l, z = x ∨ z ∈ l := by
  induction l with
  | nil => intro z hz; simp [insertDescBy] at hz; simp [hz]
  | cons y ys ih =>
    intro z hz
    by_cases h : key y ≤ key x
    · simp [insertDescBy, h] at hz
      rcases hz with h1 | h1 | h1 <;> simp [h1]
    · simp [insertDescBy, h] at hz
      rcases hz with h1 | h1
      · simp [h1]
      · rcases ih z h1 with h2 | h2 <;> simp [h2]

theorem insertDescBy_perm {α : Type} (key : α → ℚ) (x : α) (l : List α) :
    (insertDescBy key x l).Perm (x :: l) := by
  induction l with
  | nil => simp [insertDescBy]
  | cons y ys ih =>
    by_cases h : key y ≤ key x
    · simp [insertDescBy, h]
    · simp only [insertDescBy, if_neg h]
      exact (ih.cons y).trans (List.Perm.swap x y ys)

theorem sortDescBy_perm {α : Type} (key : α → ℚ) (l : List α) :
    (sortDescBy key l).Perm l := by
  induction l with
  | nil => simp [sortDescBy]
  | cons x xs ih =>
    exact (insertDescBy_perm key x (sortDescBy key xs)).trans (ih.cons x)

theorem insertDescBy_sorted {α : Type} (key : α → ℚ) (x : α) (l : List α)
    (h : l.Pairwise (fun a b => key b ≤ key a)) :
    (insertDescBy key x l).Pairwise (fun a b => key b ≤ key a) := by
  induction l with
  | nil => simp [insertDescBy]
  | cons y ys ih =>
    rcases List.pairwise_cons.mp h with ⟨hy, hys⟩
    by_cases hc : key y ≤ key x
    · rw [insertDescBy, if_pos hc]
      refine List.pairwise_cons.mpr ⟨?_, h⟩
      intro z hz
      rcases List.mem_cons.mp hz with h1 | h1
      · subst h1; exact hc
      · exact le_trans (hy z h1) hc
    · rw [insertDescBy, if_neg hc]
      refine List.pairwise_cons.mpr ⟨?_, ih hys⟩
      intro z hz
      rcases mem_insertDescBy key x ys z hz with h1 | h1
      · subst h1; exact le_of_not_le hc
      · exact hy z h1

theorem sortDescBy_sorted {α : Type} (key : α → ℚ) (l : List α) :
    (sortDescBy key l).Pairwise (fun a b => key b ≤ key a) := by
  induction l with
  | nil => simp [sortDescBy]
  | cons x xs ih => exact insertDescBy_sorted key x _ ih

/-- Stability: for each key value `q`, the elements with key `q` appear in the
sorted output in exactly their original order. -/
theorem filter_insertDescBy {α : Type} (key : α → ℚ) (q : ℚ) (x : α) (l : List α) :
    (insertDescBy key x l).filter (fun a => decide (key a = q)) =
      if key x = q then x :: l.filter (fun a => decide (key a = q))
      else l.filter (fun a => decide (key a = q)) := by
  induction l with
  | nil => by_cases h : key x = q <;> simp [insertDescBy, List.filter, h]
  | cons y ys ih =>
    by_cases hc : key y ≤ key x
    · rw [insertDescBy, if_pos hc]
      by_cases h : key x = q
      · rw [if_pos h, List.filter_cons, List.filter_cons]
        simp [h]
      · rw [if_neg h, List.filter_cons, List.filter_cons]
        simp [h]
    · rw [insertDescBy, if_neg hc, List.filter_cons]
      by_cases hy : key y = q
      · have hx : key x ≠ q := fun hx => hc (le_of_eq (hy.trans hx.symm))
        rw [ih, if_neg hx, if_neg hx, List.filter_cons]
      · by_cases h : key x = q
        · rw [ih, if_pos h, if_pos h, List.filter_cons]
          simp [hy]
        · rw [ih, if_neg h, if_neg h, List.filter_cons]

theorem sortDescBy_filter_stable {α : Type} (key : α → ℚ) (q : ℚ) (l : List α) :
    (sortDescBy key l).filter (fun a => decide (key a = q)) =
      l.filter (fun a => decide (key a = q)) := by
  induction l with
  | nil => simp [sortDescBy]
  | cons x xs ih =>
    by_cases h : key x = q <;>
      simp [sortDescBy, filter_insertDescBy, h, List.filter, ih]

end RagCV

/-! ## Context assembler: `src/src/utils/context.py` -/

namespace Ctx

open RagCV

/-- The whitespace characters recognized by Python's `\s` and `str.strip()`
(ASCII subset). -/
def pyIsSpace (c : Char) : Bool :=
  c = ' ' || c = '\t' || c = '\n' || c = '\r' || c = Char.ofNat 11 || c = Char.ofNat 12

/-- Python `str.strip()`. -/
def pyStrip (s : String) : String :=
  String.mk (((s.data.dropWhile pyIsSpace).reverse.dropWhile pyIsSpace).reverse)

/-- Python `str.rstrip()`. -/
def pyRstrip (s : String) : String :=
  String.mk ((s.data.reverse.dropWhile pyIsSpace).reverse)

/-- Python `round(n / 4)` for a natural `n`: round half to even. -/
def pyRound4 (n : Nat) : Nat :=
  n / 4 + (if n % 4 = 2 then (if (n / 4) % 2 = 1 then 1 else 0)
           else if n % 4 = 3 then 1 else 0)

/-- `approximate_token_count`: rough heuristic, about 4 characters per token. -/
def approximate_token_count (text : String) : Nat :=
  if text = "" then 0 else max 1 (pyRound4 text.length)

def isSentEnd (c : Char) : Bool := c = '.' || c = '!' || c = '?'

theorem length_dropWhile_le {α : Type} (p : α → Bool) (l : List α) :
    (l.dropWhile p).length ≤ l.length := by
  induction l with
  | nil => simp
  | cons x xs ih =>
    by_cases h : p x
    · simp only [List.dropWhile_cons, h, if_true]
      exact Nat.le_succ_of_le ih
    · simp [List.dropWhile_cons, h]

/-- `re.split(r"(?<=[.!?])\s+", text)`: split at each maximal whitespace run
whose first character is directly preceded by `.`, `!` or `?`. -/
def splitSentAux : List Char → List Char → List (List Char)
  | [], acc => [acc.reverse]
  | c :: rest, acc =>
    if pyIsSpace c && (match acc with | p :: _ => isSentEnd p | [] => false) then
      acc.reverse :: splitSentAux (rest.dropWhile pyIsSpace) []
    else
      splitSentAux rest (c :: acc)
  termination_by cs _ => cs.length
  decreasing_by
  · exact Nat.lt_succ_of_le (length_dropWhile_le _ _)
  · simp

def splitSentences (s : String) : List String :=
  (splitSentAux s.data []).map String.mk

/-- The accumulation loop of `extractive_summary`: returns the collected
sentences (in order) once the per-summary token cap is reached. -/
def summaryLoop (maxTokens : Nat) : List String → Nat → List String → List String
  | [], _, parts => parts
  | s :: rest, used, parts =>
    let s := pyStrip s
    if s = "" then summaryLoop maxTokens rest used parts
    else
      let st := approximate_token_count s
      if st = 0 then summaryLoop maxTokens rest used parts
      else if maxTokens < used + st then parts
      else if maxTokens ≤ used + st then parts ++ [s]
      else summaryLoop maxTokens rest (used + st) (parts ++ [s])

/-- `extractive_summary`: deterministic lead-sentence summary. -/
def extractive_summary (text : String) (maxTokens : Nat) : String :=
  let normalized := pyStrip text
  if normalized = "" then ""
  else
    let parts := summaryLoop maxTokens (splitSentences normalized) 0 []
    if parts = [] then pyRstrip (String.mk (normalized.data.take (maxTokens * 4)))
    else String.intercalate " " parts

/-- The metadata fields of a retrieved `Document` that the assembler reads.
`chunkLengthTokens` is `none` when the key is absent or not convertible to
`int` (both fall back to `approximate_token_count` in the source). -/
structure DocMeta where
  retrievalScore : Option ℚ
  chunkLengthTokens : Option Int
  source : Option String
  docType : Option String
  deriving DecidableEq, Repr

structure AssemblyDoc where
  pageContent : String
  metadata : DocMeta
  deriving DecidableEq, Repr

/-- `_coerce_token_estimate`. -/
def coerceTokenEstimate (v : Option Int) (text : String) : Int :=
  match v with
  | none => (approximate_token_count text : Int)
  | some n => n

structure ContextSnippet where
  text : String
  score : ℚ
  mode : String
  source : String
  docType : String
  tokens : Int
  metadata : DocMeta
  deriving DecidableEq, Repr

structure ContextAssemblyConfig where
  model_context_tokens : Nat := 8192
  prompt_reserved_tokens : Nat := 2000
  keep_raw_top_n : Nat := 3
  summarize_low_n : Nat := 7
  summary_max_tokens : Nat := 120
  deriving DecidableEq, Repr

/-- The `max_context_tokens` property:
`max(512, model_context_tokens - prompt_reserved_tokens)`. -/
def ContextAssemblyConfig.max_context_tokens (cfg : ContextAssemblyConfig) : Int :=
  max 512 ((cfg.model_context_tokens : Int) - (cfg.prompt_reserved_tokens : Int))

/-- One sorted entry of the assembler: document, score, token estimate,
metadata. -/
abbrev AsmEntry : Type := AssemblyDoc × ℚ × Int × DocMeta

/-- What the body of the assembly loop decides for one entry: stop the whole
loop (`break`), skip the entry (`continue`), or add a snippet (carrying the
updated `summaries_added` counter). -/
inductive AsmStep : Type where
  | stop : AsmStep
  | skip : AsmStep
  | add (text : String) (tokens : Int) (mode : String) (sAdded : Nat) : AsmStep
  deriving DecidableEq, Repr

/-- Mode selection for one entry of `assemble_with_token_budget`: the first
`keep_raw_top_n` entries are taken raw at their token estimate; later entries
are extractively summarized until `summarize_low_n` summaries were added. -/
def entryStep (cfg : ContextAssemblyConfig) (doc : AssemblyDoc) (tokenEstimate : Int)
    (idx sAdded : Nat) : AsmStep :=
  if idx < cfg.keep_raw_top_n then
    .add (pyStrip doc.pageContent) tokenEstimate "raw" sAdded
  else if cfg.summarize_low_n ≤ sAdded then .stop
  else
    let summary := pyStrip (extractive_summary doc.pageContent cfg.summary_max_tokens)
    if summary = "" then .skip
    else .add summary (approximate_token_count summary) "summary" (sAdded + 1)

/-- The assembly loop: `idx` enumerates the sorted entries, `sAdded` counts
emitted summaries, `used` is the running token total; a candidate whose cost
would push `used` past `maxT` stops the loop (Python `break`). -/
def assembleGo (cfg : ContextAssemblyConfig) (maxT : Int) :
    List AsmEntry → Nat → Nat → Int → List ContextSnippet
  | [], _, _, _ => []
  | (doc, score, tokenEstimate, meta) :: rest, idx, sAdded, used =>
    match entryStep cfg doc tokenEstimate idx sAdded with
    | .stop => []
    | .skip => assembleGo cfg maxT rest (idx + 1) sAdded used
    | .add text st mode sAdded' =>
      if st = 0 then assembleGo cfg maxT rest (idx + 1) sAdded' used
      else if maxT < used + st then []
      else
        { text := text, score := score, mode := mode,
          source := meta.source.getD "unknown",
          docType := meta.docType.getD "unknown",
          tokens := st, metadata := meta } ::
          assembleGo cfg maxT rest (idx + 1) sAdded' (used + st)

/-- `assemble_with_token_budget`. -/
def assemble_with_token_budget (docs : List AssemblyDoc)
    (cfg : ContextAssemblyConfig) : List ContextSnippet :=
  if docs = [] then []
  else
    let entries : List AsmEntry := docs.map (fun d =>
      (d, (d.metadata.retrievalScore.getD 0),
        coerceTokenEstimate d.metadata.chunkLengthTokens d.pageContent,
        d.metadata))
    let entries := RagCV.sortDescBy (fun e => e.2.1) entries
    assembleGo cfg cfg.max_context_tokens entries 0 0 0

/-- Summed token cost of an assembled snippet list. -/
def snippetTokens (l : List ContextSnippet) : Int :=
  (l.map ContextSnippet.tokens).sum

theorem assembleGo_budget (cfg : ContextAssemblyConfig) (maxT : Int) :
    ∀ (entries : List AsmEntry) (idx sAdded : Nat) (used : Int),
      used ≤ maxT →
      used + snippetTokens (assembleGo cfg maxT entries idx sAdded used) ≤ maxT := by
  intro entries
  induction entries with
  | nil => intro idx sAdded used h; simpa [assembleGo, snippetTokens] using h
  | cons e rest ih =>
    intro idx sAdded used h
    obtain ⟨doc, score, tokenEstimate, meta⟩ := e
    show used + snippetTokens (assembleGo cfg maxT ((doc, score, tokenEstimate, meta) :: rest) idx sAdded used) ≤ maxT
    rw [assembleGo]
    cases entryStep cfg doc tokenEstimate idx sAdded with
    | stop => simpa [snippetTokens] using h
    | skip => exact ih (idx + 1) sAdded used h
    | add text st mode sAdded' =>
      by_cases h0 : st = 0
      · simpa [h0] using ih (idx + 1) sAdded' used h
      · by_cases h1 : maxT < used + st
        · simpa [h0, h1, snippetTokens] using h
        · have h2 : used + st ≤ maxT := le_of_not_lt h1
          have := ih (idx + 1) sAdded' (used + st) h2
          simp only [h0, h1, if_false, if_neg h0, if_neg h1]
          simp only [snippetTokens, List.map_cons, List.sum_cons] at this ⊢
          linarith

end Ctx

/-! ## Claim C1 and C10 theorems (context assembler) -/

/-- C1: for every input document list and every assembly configuration, the
summed token cost of the `ContextSnippet` list returned by
`assemble_with_token_budget` never exceeds the usable budget
`max_context_tokens`; and (second conjunct) a candidate whose token cost would
push the running total past the budget is not added — assembly stops there
(the loop returns without emitting it or any later snippet). -/
theorem assemble_token_budget_ceiling :
    (∀ (docs : List Ctx.AssemblyDoc) (cfg : Ctx.ContextAssemblyConfig),
      Ctx.snippetTokens (Ctx.assemble_with_token_budget docs cfg) ≤
        cfg.max_context_tokens) ∧
    (∀ (cfg : Ctx.ContextAssemblyConfig) (maxT : Int) (e : Ctx.AsmEntry)
       (rest : List Ctx.AsmEntry) (idx sAdded : Nat) (used : Int)
       (text : String) (st : Int) (mode : String) (sAdded' : Nat),
      Ctx.entryStep cfg e.1 e.2.2.1 idx sAdded = .add text st mode sAdded' →
      st ≠ 0 → maxT < used + st →
      Ctx.assembleGo cfg maxT (e :: rest) idx sAdded used = []) := by
  constructor
  · intro docs cfg
    rw [Ctx.assemble_with_token_budget]
    by_cases h : docs = []
    · simp only [h, if_true]
      have : (512 : Int) ≤ cfg.max_context_tokens := le_max_left _ _
      simp only [Ctx.snippetTokens, List.map_nil, List.sum_nil]
      omega
    · simp only [h, if_false]
      have h0 : (0 : Int) ≤ cfg.max_context_tokens :=
        le_trans (by norm_num) (le_max_left 512 _)
      have := Ctx.assembleGo_budget cfg cfg.max_context_tokens
        (RagCV.sortDescBy (fun e => e.2.1) (docs.map (fun d =>
          (d, (d.metadata.retrievalScore.getD 0),
            Ctx.coerceTokenEstimate d.metadata.chunkLengthTokens d.pageContent,
            d.metadata)))) 0 0 0 h0
      simpa using this
  · intro cfg maxT e rest idx sAdded used text st mode sAdded' hstep hst hover
    obtain ⟨doc, score, tokenEstimate, meta⟩ := e
    rw [Ctx.assembleGo]
    simp only at hstep
    rw [hstep]
    simp only [if_neg hst, if_pos hover]

/-- Witness for `assemble_token_budget_ceiling`: a raw-mode entry costing 600
tokens against a remaining budget of 512 is rejected and assembly stops. -/
theorem assemble_token_budget_ceiling_witness :
    Ctx.entryStep {} ⟨"hello", ⟨some 1, some 600, none, none⟩⟩ 600 0 0 =
        .add "hello" 600 "raw" 0 ∧
    Ctx.assembleGo {} 512
        [(⟨"hello", ⟨some 1, some 600, none, none⟩⟩, 1, 600,
          ⟨some 1, some 600, none, none⟩)] 0 0 0 = [] := by
  constructor
  · decide
  · exact assemble_token_budget_ceiling.2 {} 512
      (⟨"hello", ⟨some 1, some 600, none, none⟩⟩, 1, 600,
        ⟨some 1, some 600, none, none⟩) [] 0 0 0 "hello" 600 "raw" 0
      (by decide) (by decide) (by decide)

/-- C10: the assembler's usable budget is `max(512, model_context_tokens -
prompt_reserved_tokens)`; whenever the reserved prompt overhead leaves fewer
than 512 tokens of the model window (including when it exceeds the whole
window), the ceiling applied to assembly is 512, which is larger than the
space actually remaining in the model's context window. -/
theorem max_context_tokens_floor (cfg : Ctx.ContextAssemblyConfig)
    (h : (cfg.model_context_tokens : Int) - (cfg.prompt_reserved_tokens : Int) < 512) :
    cfg.max_context_tokens = 512 ∧
    (cfg.model_context_tokens : Int) - (cfg.prompt_reserved_tokens : Int) <
      cfg.max_context_tokens := by
  unfold Ctx.ContextAssemblyConfig.max_context_tokens
  omega

/-- Witness for `max_context_tokens_floor`: a 1000-token window with 600
reserved leaves 400 usable, yet the applied ceiling is 512. -/
theorem max_context_tokens_floor_witness :
    ((1000 : Int) - (600 : Int) < 512) ∧
    (Ctx.ContextAssemblyConfig.max_context_tokens ⟨1000, 600, 3, 7, 120⟩ = 512 ∧
      (1000 : Int) - (600 : Int) <
        Ctx.ContextAssemblyConfig.max_context_tokens ⟨1000, 600, 3, 7, 120⟩) := by
  refine ⟨by norm_num, ?_⟩
  exact max_context_tokens_floor ⟨1000, 600, 3, 7, 120⟩ (by norm_num)

/-! ## Adaptive retriever: `src/backend/ragcv/retrieval/retrieval.py` -/

namespace Retr

/-- A LangChain `Document`.  `docId` embeds Python object identity (`id(doc)`):
the vectorstore docstore returns the same objects on every call, so the same
stored document always carries the same `docId` and distinct documents carry
distinct ids. -/
structure Doc where
  docId : Nat
  content : String
  deriving DecidableEq, Repr

/-- A scored candidate `(Document, float)`. -/
abbrev Cand : Type := Doc × ℚ

/-- `AdaptiveRetrieverConfig` (a plain dataclass, source defaults shown). -/
structure AdaptiveRetrieverConfig where
  base_k : Nat := 10
  mmr_k : Nat := 5
  mmr_lambda : ℚ := 3/5
  score_threshold : ℚ := 3/20
  min_high_score : Nat := 5
  dedupe_threshold : ℚ := 22/25
  use_hybrid : Bool := true
  bm25_weight : ℚ := 1/2
  embedding_weight : ℚ := 1/2
  deriving DecidableEq, Repr

/-- The built BM25 index (`rank_bm25.BM25Okapi`), abstracted as its
`get_scores` method: a tokenized query yields one lexical score per corpus
document, aligned with the tokenized corpus it was built from. -/
abbrev BM25Model : Type := List String → List ℚ

/-- The external vectorstore collaborator.  `search` is the result of
`_run_vectorstore_search` (relevance scores already normalized to
`1/(1+distance)` when the store returns distances); `corpus` is the document
extraction used by `_initialize_bm25` (`none` when that extraction raises);
`buildBm25` is tokenization plus `BM25Okapi` construction (`none` when it
raises). -/
structure VSModel where
  search : String → Nat → List Cand
  corpus : Option (List Doc)
  buildBm25 : List Doc → Option BM25Model

/-- The external embedding collaborator (`embed_documents` applied per text;
deterministic for identical text). -/
abbrev EmbedFn : Type := String → List ℚ

/-- Python `str.lower()` (ASCII view). -/
def pyLower (s : String) : String := String.mk (s.data.map Char.toLower)

def pySplitAux : List Char → List Char → List String
  | [], acc => if acc.isEmpty then [] else [String.mk acc.reverse]
  | c :: rest, acc =>
    if Ctx.pyIsSpace c then
      if acc.isEmpty then pySplitAux rest []
      else String.mk acc.reverse :: pySplitAux rest []
    else pySplitAux rest (c :: acc)

/-- Python `str.split()` with no argument: split on whitespace runs,
discarding empty pieces. -/
def pySplit (s : String) : List String := pySplitAux s.data []

/-- `np.dot` on equal-length rational vectors. -/
def dotQ (a b : List ℚ) : ℚ := ((a.zip b).map (fun p => p.1 * p.2)).sum

def normSq (a : List ℚ) : ℚ := dotQ a a

/-- `cos_sim`: `np.dot(a, b) / (norm(a) * norm(b))`, returning `0.0` when the
denominator is zero, exactly as the source's explicit check does. -/
noncomputable def cosSim (a b : List ℚ) : ℝ :=
  let denom := Real.sqrt ((normSq a : ℚ) : ℝ) * Real.sqrt ((normSq b : ℚ) : ℝ)
  if denom = 0 then 0 else ((dotQ a b : ℚ) : ℝ) / denom

/-- `_initialize_bm25`: extract the corpus and build the index; any raise is
caught and leaves `bm25 = None` (and the corpus stays whatever was set before
the raise — empty when extraction itself raised).  An empty corpus also leaves
`bm25 = None`. -/
def initializeBm25 (vs : VSModel) : List Doc × Option BM25Model :=
  match vs.corpus with
  | none => ([], none)
  | some docs => (docs, if docs.isEmpty then none else vs.buildBm25 docs)

/-- The engine state after `AdaptiveRetriever.__init__`. -/
structure Retriever where
  vs : VSModel
  embeddings : EmbedFn
  config : AdaptiveRetrieverConfig
  corpusDocs : List Doc
  bm25 : Option BM25Model

/-- `AdaptiveRetriever.__init__`: builds the BM25 index once, eagerly, iff
hybrid mode is enabled.  Construction never raises. -/
def AdaptiveRetriever.init (vs : VSModel) (emb : EmbedFn)
    (cfg : AdaptiveRetrieverConfig) : Retriever :=
  let built := if cfg.use_hybrid then initializeBm25 vs else ([], none)
  { vs := vs, embeddings := emb, config := cfg,
    corpusDocs := built.1, bm25 := built.2 }

/-! ### `_hybrid_search`: reciprocal rank fusion -/

/-- The `rrf_scores` dict: insertion-ordered association list from `id(doc)`
to `(doc, fused score)`. -/
abbrev RrfDict : Type := List (Nat × Cand)

/-- One step of the embedding-ranks loop: on an existing key the entry is
replaced in place by the current doc with the accumulated score; otherwise a
new entry is appended. -/
def upsertDense (d : Doc) (c : ℚ) : RrfDict → RrfDict
  | [] => [(d.docId, (d, c))]
  | (k, e) :: rest =>
    if k = d.docId then (k, (d, e.2 + c)) :: rest
    else (k, e) :: upsertDense d c rest

/-- One step of the BM25-ranks loop: on an existing key only the score is
increased; otherwise a new entry is appended. -/
def upsertBm25 (d : Doc) (c : ℚ) : RrfDict → RrfDict
  | [] => [(d.docId, (d, c))]
  | (k, e) :: rest =>
    if k = d.docId then (k, (e.1, e.2 + c)) :: rest
    else (k, e) :: upsertBm25 d c rest

/-- `for rank, (doc, score) in enumerate(embedding_results, start=1)` with
contribution `embedding_weight / (k_rrf + rank)`, `k_rrf = 60`. -/
def addDense (w : ℚ) : List Cand → Nat → RrfDict → RrfDict
  | [], _, m => m
  | (d, _) :: rest, rank, m =>
    addDense w rest (rank + 1) (upsertDense d (w / (60 + (rank : ℚ))) m)

/-- `for rank, (doc, score) in enumerate(bm25_results, start=1)` with
contribution `bm25_weight / (k_rrf + rank)`. -/
def addBm25 (w : ℚ) : List Cand → Nat → RrfDict → RrfDict
  | [], _, m => m
  | (d, _) :: rest, rank, m =>
    addBm25 w rest (rank + 1) (upsertBm25 d (w / (60 + (rank : ℚ))) m)

/-- The BM25 side of `_hybrid_search`: score the whole corpus, normalize by
the maximum (or 1.0 when the maximum is not positive), pair scores with the
corpus documents, sort descending (stably) and keep the top `2 * base_k`.
The BM25 contract yields exactly one score per corpus document. -/
def bm25Ranked (b : BM25Model) (corpusDocs : List Doc) (query : String)
    (cfg : AdaptiveRetrieverConfig) : List Cand :=
  let bm25Scores := b (pySplit (pyLower query))
  let m0 := bm25Scores.max?.getD 0
  let maxBm25 := if 0 < m0 then m0 else 1
  let bm25Normalized := bm25Scores.map (· / maxBm25)
  let bm25Results := corpusDocs.zip bm25Normalized
  (RagCV.sortDescBy (fun c => c.2) bm25Results).take (cfg.base_k * 2)

/-- The `rrf_scores` dict built from the two ranked lists. -/
def rrfDict (ew bw : ℚ) (E B : List Cand) : RrfDict :=
  addBm25 bw B 1 (addDense ew E 1 [])

/-- `fused_results` before the final sort: dict values in insertion order. -/
def rrfFuse (ew bw : ℚ) (E B : List Cand) : List Cand :=
  (rrfDict ew bw E B).map (fun p => p.2)

/-- `_hybrid_search`. -/
def hybridSearch (vs : VSModel) (b : BM25Model) (corpusDocs : List Doc)
    (query : String) (cfg : AdaptiveRetrieverConfig) : List Cand :=
  let E := vs.search query (cfg.base_k * 2)
  let B := bm25Ranked b corpusDocs query cfg
  (RagCV.sortDescBy (fun c => c.2)
    (rrfFuse cfg.embedding_weight cfg.bm25_weight E B)).take cfg.base_k

end Retr


namespace Retr

/-! ### Score formula of the RRF dict -/

/-- Lookup by `id(doc)` in the `rrf_scores` dict. -/
def findRrf (k : Nat) : RrfDict → Option Cand
  | [] => none
  | (k0, e) :: rest => if k0 = k then some e else findRrf k rest

/-- The fused score currently recorded for key `k`. -/
def scoreAt (k : Nat) (m : RrfDict) : Option ℚ :=
  (findRrf k m).map (fun c => c.2)

def rankOfAux (k : Nat) : List Cand → Nat → Option Nat
  | [], _ => none
  | (d, _) :: rest, r => if d.docId = k then some r else rankOfAux k rest (r + 1)

/-- 1-based rank of the first occurrence of key `k` in a ranked list. -/
def rankOf (k : Nat) (l : List Cand) : Option Nat := rankOfAux k l 1

/-- Reciprocal-rank contribution of one source list: `w / (60 + r)` when the
chunk appears at rank `r`, zero when it is absent. -/
def rrfContrib (w : ℚ) : Option Nat → ℚ
  | none => 0
  | some r => w / (60 + (r : ℚ))

def candIds (l : List Cand) : List Nat := l.map (fun c => c.1.docId)

theorem scoreAt_nil (k : Nat) : scoreAt k [] = none := rfl

theorem scoreAt_upsertDense (k : Nat) (d : Doc) (c : ℚ) (m : RrfDict) :
    scoreAt k (upsertDense d c m) =
      if k = d.docId then some ((scoreAt k m).getD 0 + c) else scoreAt k m := by
  induction m with
  | nil =>
    by_cases h : k = d.docId
    · simp [upsertDense, scoreAt, findRrf, h]
    · simp [upsertDense, scoreAt, findRrf, h,
        show d.docId ≠ k from fun hh => h hh.symm]
  | cons p rest ih =>
    obtain ⟨k0, e⟩ := p
    by_cases hk : k0 = d.docId
    · by_cases h : k = k0
      · have hkd : k = d.docId := h.trans hk
        simp [upsertDense, scoreAt, findRrf, hk, hkd,
          show k0 = k from h.symm]
      · have hkd : k ≠ d.docId := fun hh => h (hh.trans hk.symm)
        simp [upsertDense, scoreAt, findRrf, hk, hkd,
          show k0 ≠ k from fun hh => h hh.symm,
          show d.docId ≠ k from fun hh => hkd hh.symm]
    · by_cases h : k = k0
      · subst h
        simp [upsertDense, scoreAt, findRrf, hk]
      · simp only [upsertDense, if_neg hk]
        have hne : k0 ≠ k := fun hh => h hh.symm
        simp only [scoreAt, findRrf, if_neg hne]
        rw [show (findRrf k (upsertDense d c rest)).map (fun c => c.2) =
          scoreAt k (upsertDense d c rest) from rfl]
        rw [show (findRrf k rest).map (fun c => c.2) = scoreAt k rest from rfl]
        exact ih

theorem scoreAt_upsertBm25 (k : Nat) (d : Doc) (c : ℚ) (m : RrfDict) :
    scoreAt k (upsertBm25 d c m) =
      if k = d.docId then some ((scoreAt k m).getD 0 + c) else scoreAt k m := by
  induction m with
  | nil =>
    by_cases h : k = d.docId
    · simp [upsertBm25, scoreAt, findRrf, h]
    · simp [upsertBm25, scoreAt, findRrf, h,
        show d.docId ≠ k from fun hh => h hh.symm]
  | cons p rest ih =>
    obtain ⟨k0, e⟩ := p
    by_cases hk : k0 = d.docId
    · by_cases h : k = k0
      · have hkd : k = d.docId := h.trans hk
        simp [upsertBm25, scoreAt, findRrf, hk, hkd,
          show k0 = k from h.symm]
      · have hkd : k ≠ d.docId := fun hh => h (hh.trans hk.symm)
        simp [upsertBm25, scoreAt, findRrf, hk, hkd,
          show k0 ≠ k from fun hh => h hh.symm,
          show d.docId ≠ k from fun hh => hkd hh.symm]
    · by_cases h : k = k0
      · subst h
        simp [upsertBm25, scoreAt, findRrf, hk]
      · simp only [upsertBm25, if_neg hk]
        have hne : k0 ≠ k := fun hh => h hh.symm
        simp only [scoreAt, findRrf, if_neg hne]
        rw [show (findRrf k (upsertBm25 d c rest)).map (fun c => c.2) =
          scoreAt k (upsertBm25 d c rest) from rfl]
        rw [show (findRrf k rest).map (fun c => c.2) = scoreAt k rest from rfl]
        exact ih

theorem scoreAt_addDense_notmem (w : ℚ) (k : Nat) :
    ∀ (E : List Cand) (rank : Nat) (m : RrfDict), k ∉ candIds E →
      scoreAt k (addDense w E rank m) = scoreAt k m := by
  intro E
  induction E with
  | nil => intro rank m _; rfl
  | cons e rest ih =>
    intro rank m hk
    obtain ⟨d, s⟩ := e
    have hd : k ≠ d.docId := by
      intro h; exact hk (by simp [candIds, h])
    have hrest : k ∉ candIds rest := by
      intro h; exact hk (by simp [candIds] at h ⊢; exact Or.inr h)
    rw [addDense, ih _ _ hrest, scoreAt_upsertDense, if_neg hd]

theorem scoreAt_addBm25_notmem (w : ℚ) (k : Nat) :
    ∀ (B : List Cand) (rank : Nat) (m : RrfDict), k ∉ candIds B →
      scoreAt k (addBm25 w B rank m) = scoreAt k m := by
  intro B
  induction B with
  | nil => intro rank m _; rfl
  | cons e rest ih =>
    intro rank m hk
    obtain ⟨d, s⟩ := e
    have hd : k ≠ d.docId := by
      intro h; exact hk (by simp [candIds, h])
    have hrest : k ∉ candIds rest := by
      intro h; exact hk (by simp [candIds] at h ⊢; exact Or.inr h)
    rw [addBm25, ih _ _ hrest, scoreAt_upsertBm25, if_neg hd]

theorem scoreAt_addDense_mem (w : ℚ) (k : Nat) :
    ∀ (E : List Cand) (rank r : Nat) (m : RrfDict), (candIds E).Nodup →
      rankOfAux k E rank = some r →
      scoreAt k (addDense w E rank m) =
        some ((scoreAt k m).getD 0 + w / (60 + (r : ℚ))) := by
  intro E
  induction E with
  | nil => intro rank r m _ hr; simp [rankOfAux] at hr
  | cons e rest ih =>
    intro rank r m hnd hr
    obtain ⟨d, s⟩ := e
    simp only [candIds, List.map_cons, List.nodup_cons] at hnd
    by_cases hd : d.docId = k
    · rw [rankOfAux, if_pos hd] at hr
      injection hr with hr
      subst hr
      have hrest : k ∉ candIds rest := by rw [← hd]; exact hnd.1
      rw [addDense, scoreAt_addDense_notmem w k rest _ _ hrest,
        scoreAt_upsertDense, if_pos hd.symm]
    · rw [rankOfAux, if_neg hd] at hr
      rw [addDense, ih _ _ _ hnd.2 hr, scoreAt_upsertDense,
        if_neg (fun h => hd h.symm)]

theorem scoreAt_addBm25_mem (w : ℚ) (k : Nat) :
    ∀ (B : List Cand) (rank r : Nat) (m : RrfDict), (candIds B).Nodup →
      rankOfAux k B rank = some r →
      scoreAt k (addBm25 w B rank m) =
        some ((scoreAt k m).getD 0 + w / (60 + (r : ℚ))) := by
  intro B
  induction B with
  | nil => intro rank r m _ hr; simp [rankOfAux] at hr
  | cons e rest ih =>
    intro rank r m hnd hr
    obtain ⟨d, s⟩ := e
    simp only [candIds, List.map_cons, List.nodup_cons] at hnd
    by_cases hd : d.docId = k
    · rw [rankOfAux, if_pos hd] at hr
      injection hr with hr
      subst hr
      have hrest : k ∉ candIds rest := by rw [← hd]; exact hnd.1
      rw [addBm25, scoreAt_addBm25_notmem w k rest _ _ hrest,
        scoreAt_upsertBm25, if_pos hd.symm]
    · rw [rankOfAux, if_neg hd] at hr
      rw [addBm25, ih _ _ _ hnd.2 hr, scoreAt_upsertBm25,
        if_neg (fun h => hd h.symm)]

theorem rankOfAux_eq_none (k : Nat) :
    ∀ (l : List Cand) (rank : Nat), k ∉ candIds l → rankOfAux k l rank = none := by
  intro l
  induction l with
  | nil => intro rank _; rfl
  | cons e rest ih =>
    intro rank hk
    obtain ⟨d, s⟩ := e
    have hd : ¬ d.docId = k := by
      intro h; exact hk (by simp [candIds, h])
    rw [rankOfAux, if_neg hd]
    exact ih _ (fun h => hk (by simp [candIds] at h ⊢; exact Or.inr h))

theorem rankOfAux_isSome (k : Nat) :
    ∀ (l : List Cand) (rank : Nat), k ∈ candIds l →
      ∃ r, rankOfAux k l rank = some r := by
  intro l
  induction l with
  | nil => intro rank hk; simp [candIds] at hk
  | cons e rest ih =>
    intro rank hk
    obtain ⟨d, s⟩ := e
    by_cases hd : d.docId = k
    · exact ⟨rank, by rw [rankOfAux, if_pos hd]⟩
    · have hmem : k ∈ candIds rest := by
        simp [candIds] at hk ⊢
        rcases hk with h | h
        · exact absurd h.symm hd
        · exact h
      obtain ⟨r, hr⟩ := ih (rank + 1) hmem
      exact ⟨r, by rw [rankOfAux, if_neg hd]; exact hr⟩

/-- The fused score of every chunk: its dense reciprocal-rank contribution
plus its lexical reciprocal-rank contribution, zero from a list it is absent
from; a chunk in neither list is not in the dict. -/
theorem rrfDict_score (ew bw : ℚ) (E B : List Cand)
    (hE : (candIds E).Nodup) (hB : (candIds B).Nodup) (k : Nat) :
    scoreAt k (rrfDict ew bw E B) =
      match rankOf k E, rankOf k B with
      | none, none => none
      | rE, rB => some (rrfContrib ew rE + rrfContrib bw rB) := by
  by_cases hkE : k ∈ candIds E
  · obtain ⟨rE, hrE⟩ := rankOfAux_isSome k E 1 hkE
    by_cases hkB : k ∈ candIds B
    · obtain ⟨rB, hrB⟩ := rankOfAux_isSome k B 1 hkB
      rw [rrfDict, scoreAt_addBm25_mem bw k B 1 rB _ hB hrB,
        scoreAt_addDense_mem ew k E 1 rE _ hE hrE]
      simp [rankOf, hrE, hrB, rrfContrib, scoreAt_nil]
    · have hrB := rankOfAux_eq_none k B 1 hkB
      rw [rrfDict, scoreAt_addBm25_notmem bw k B 1 _ hkB,
        scoreAt_addDense_mem ew k E 1 rE _ hE hrE]
      simp [rankOf, hrE, hrB, rrfContrib, scoreAt_nil]
  · have hrE := rankOfAux_eq_none k E 1 hkE
    by_cases hkB : k ∈ candIds B
    · obtain ⟨rB, hrB⟩ := rankOfAux_isSome k B 1 hkB
      rw [rrfDict, scoreAt_addBm25_mem bw k B 1 rB _ hB hrB,
        scoreAt_addDense_notmem ew k E 1 _ hkE]
      simp [rankOf, hrE, hrB, rrfContrib, scoreAt_nil]
    · have hrB := rankOfAux_eq_none k B 1 hkB
      rw [rrfDict, scoreAt_addBm25_notmem bw k B 1 _ hkB,
        scoreAt_addDense_notmem ew k E 1 _ hkE]
      simp [rankOf, hrE, hrB, scoreAt_nil]

end Retr

namespace Retr

/-! ### Claim C3 -/

/-- C3 (amended): in hybrid mode, a chunk at 1-based rank `r` in a source
list contributes `weight_source / (60 + r)` to its fused score, a chunk's
fused score is the sum of its contributions over exactly the lists it appears
in (zero from a list it is absent from), and the fused output is the stable
descending sort of the fused candidates — sorted by fused score descending
with ties left in dict-insertion order (densely-ranked chunks first, in dense
rank order, then lexical-only chunks in lexical rank order), truncated to
`base_k`.  Chunk identity is not consulted for tie-breaking; the output order
is still fully determined by the two input rankings. -/
theorem hybrid_rrf_amended (vs : VSModel) (b : BM25Model) (corpusDocs : List Doc)
    (query : String) (cfg : AdaptiveRetrieverConfig) (E B : List Cand)
    (hEdef : E = vs.search query (cfg.base_k * 2))
    (hBdef : B = bm25Ranked b corpusDocs query cfg)
    (hE : (candIds E).Nodup) (hB : (candIds B).Nodup) :
    (hybridSearch vs b corpusDocs query cfg =
      (RagCV.sortDescBy (fun c => c.2)
        (rrfFuse cfg.embedding_weight cfg.bm25_weight E B)).take cfg.base_k) ∧
    (∀ k, scoreAt k (rrfDict cfg.embedding_weight cfg.bm25_weight E B) =
      match rankOf k E, rankOf k B with
      | none, none => none
      | rE, rB => some (rrfContrib cfg.embedding_weight rE +
          rrfContrib cfg.bm25_weight rB)) ∧
    ((RagCV.sortDescBy (fun c => c.2)
        (rrfFuse cfg.embedding_weight cfg.bm25_weight E B)).Pairwise
      (fun a b => b.2 ≤ a.2)) ∧
    (∀ q : ℚ, (RagCV.sortDescBy (fun c => c.2)
        (rrfFuse cfg.embedding_weight cfg.bm25_weight E B)).filter
          (fun c => decide (c.2 = q)) =
      (rrfFuse cfg.embedding_weight cfg.bm25_weight E B).filter
        (fun c => decide (c.2 = q))) := by
  subst hEdef hBdef
  exact ⟨rfl, fun k => rrfDict_score _ _ _ _ hE hB k,
    RagCV.sortDescBy_sorted _ _, fun q => RagCV.sortDescBy_filter_stable _ q _⟩

def c3wVs : VSModel :=
  ⟨fun _ _ => [(⟨1, "a"⟩, 1/2)], some [⟨2, "b"⟩], fun _ => some (fun _ => [1])⟩

def c3wB : BM25Model := fun _ => [1]

theorem c3wBm25Eval : bm25Ranked c3wB [⟨2, "b"⟩] "q" {} = [(⟨2, "b"⟩, 1)] := by
  simp only [bm25Ranked]
  rw [show c3wB (pySplit (pyLower "q")) = [1] from rfl]
  rw [show (([1] : List ℚ).max?.getD 0) = 1 from rfl]
  norm_num [RagCV.sortDescBy, RagCV.insertDescBy]

/-- Witness for `hybrid_rrf_amended` at a one-document dense list and a
one-document corpus. -/
theorem hybrid_rrf_amended_witness :
    ((candIds [(⟨1, "a"⟩, 1/2)]).Nodup ∧
      (candIds [((⟨2, "b"⟩ : Doc), (1 : ℚ))]).Nodup) ∧
    hybridSearch c3wVs c3wB [⟨2, "b"⟩] "q" {} =
      (RagCV.sortDescBy (fun c => c.2)
        (rrfFuse (1/2) (1/2) [(⟨1, "a"⟩, 1/2)]
          [(⟨2, "b"⟩, 1)])).take 10 := by
  refine ⟨⟨by decide, by decide⟩, ?_⟩
  exact (hybrid_rrf_amended c3wVs c3wB [⟨2, "b"⟩] "q" {}
    [(⟨1, "a"⟩, 1/2)] [(⟨2, "b"⟩, 1)] (by rfl) c3wBm25Eval.symm
    (by decide) (by decide)).1

def c3vs : VSModel :=
  ⟨fun _ _ => [(⟨9, "aa"⟩, 4/5)], some [⟨5, "bb"⟩, ⟨3, "cc"⟩], fun _ => none⟩

def c3b : BM25Model := fun _ => [2, 1]

def c3cfg : AdaptiveRetrieverConfig :=
  { base_k := 3, bm25_weight := 0, embedding_weight := 1 }

theorem c3Bm25Eval : bm25Ranked c3b [⟨5, "bb"⟩, ⟨3, "cc"⟩] "q" c3cfg =
    [(⟨5, "bb"⟩, 1), (⟨3, "cc"⟩, 1/2)] := by
  simp only [bm25Ranked]
  rw [show c3b (pySplit (pyLower "q")) = [2, 1] from rfl]
  rw [show (([2, 1] : List ℚ).max?.getD 0) = 2 from rfl]
  norm_num [RagCV.sortDescBy, RagCV.insertDescBy, c3cfg]

theorem c3FuseEval :
    rrfFuse 1 0 [(⟨9, "aa"⟩, 4/5)] [(⟨5, "bb"⟩, 1), (⟨3, "cc"⟩, 1/2)] =
      [(⟨9, "aa"⟩, 1/61), (⟨5, "bb"⟩, 0), (⟨3, "cc"⟩, 0)] := by
  norm_num [rrfFuse, rrfDict, addDense, addBm25, upsertDense, upsertBm25]

theorem c3HybridEval : hybridSearch c3vs c3b [⟨5, "bb"⟩, ⟨3, "cc"⟩] "q" c3cfg =
    [(⟨9, "aa"⟩, 1/61), (⟨5, "bb"⟩, 0), (⟨3, "cc"⟩, 0)] := by
  simp only [hybridSearch]
  rw [show c3vs.search "q" (c3cfg.base_k * 2) = [(⟨9, "aa"⟩, 4/5)] from rfl]
  rw [c3Bm25Eval]
  rw [show c3cfg.embedding_weight = 1 from rfl, show c3cfg.bm25_weight = 0 from rfl]
  rw [c3FuseEval]
  norm_num [RagCV.sortDescBy, RagCV.insertDescBy, c3cfg]

/-- Counterexample to C3 as stated: with valid weights (dense 1.0, lexical
0.0), the two lexical-only chunks (ids 5 and 3) tie at fused score 0 and
neither appears in the dense list, so under the claimed tie-break ("original
dense rank, then chunk identity") the chunk with id 3 would have to precede
the chunk with id 5; the code instead emits id 5 first (lexical insertion
order).  Ties are not broken by chunk identity. -/
theorem hybrid_rrf_counterexample :
    hybridSearch c3vs c3b [⟨5, "bb"⟩, ⟨3, "cc"⟩] "q" c3cfg =
      [(⟨9, "aa"⟩, 1/61), (⟨5, "bb"⟩, 0), (⟨3, "cc"⟩, 0)] ∧
    ((hybridSearch c3vs c3b [⟨5, "bb"⟩, ⟨3, "cc"⟩] "q" c3cfg).getD 1
        (⟨0, ""⟩, 0)).2 =
      ((hybridSearch c3vs c3b [⟨5, "bb"⟩, ⟨3, "cc"⟩] "q" c3cfg).getD 2
        (⟨0, ""⟩, 0)).2 ∧
    ((hybridSearch c3vs c3b [⟨5, "bb"⟩, ⟨3, "cc"⟩] "q" c3cfg).getD 2
        (⟨0, ""⟩, 0)).1.docId <
      ((hybridSearch c3vs c3b [⟨5, "bb"⟩, ⟨3, "cc"⟩] "q" c3cfg).getD 1
        (⟨0, ""⟩, 0)).1.docId := by
  refine ⟨c3HybridEval, ?_, ?_⟩ <;> rw [c3HybridEval] <;> norm_num

end Retr

/-! ## Validated retrieval configuration: `src/backend/ragcv/spec/models.py`

The backend constructs the engine's configuration through
`load_retrieval_config`, which builds the pydantic `RetrievalConfig` model;
its field and model validators raise (pydantic `ValidationError`, the spec's
`ConfigurationError`) before any `AdaptiveRetriever` is constructed. -/

namespace Cfg

/-- The raw field values handed to the pydantic `RetrievalConfig` model
(count fields as `Int` so that non-positive inputs are expressible). -/
structure RawRetrievalConfig where
  base_k : Int := 10
  mmr_k : Int := 5
  mmr_lambda : ℚ := 3/5
  score_threshold : ℚ := 3/20
  min_high_score : Int := 5
  dedupe_threshold : ℚ := 22/25
  use_hybrid : Bool := true
  bm25_weight : ℚ := 1/2
  embedding_weight : ℚ := 1/2
  deriving DecidableEq, Repr

/-- The `RetrievalConfig` field and model validators, in source order.
pydantic raises on the first collected failure; which message wins does not
matter for the error/ok distinction modelled here. -/
def validate (r : RawRetrievalConfig) : Except String RawRetrievalConfig :=
  if r.base_k ≤ 0 then .error "base_k must be positive"
  else if r.min_high_score ≤ 0 then .error "min_high_score must be positive"
  else if r.mmr_k ≤ 0 then .error "mmr_k must be positive"
  else if ¬ (0 ≤ r.score_threshold ∧ r.score_threshold ≤ 1) then
    .error "score_threshold must be between 0 and 1"
  else if ¬ (0 ≤ r.dedupe_threshold ∧ r.dedupe_threshold ≤ 1) then
    .error "dedupe_threshold must be between 0 and 1"
  else if ¬ (0 ≤ r.mmr_lambda ∧ r.mmr_lambda ≤ 1) then
    .error "mmr_lambda must be between 0 and 1"
  else if ¬ (0 ≤ r.bm25_weight ∧ r.bm25_weight ≤ 1) then
    .error "bm25_weight must be between 0 and 1"
  else if ¬ (0 ≤ r.embedding_weight ∧ r.embedding_weight ≤ 1) then
    .error "embedding_weight must be between 0 and 1"
  else if r.use_hybrid = true ∧
      ¬ (95/100 ≤ r.bm25_weight + r.embedding_weight ∧
         r.bm25_weight + r.embedding_weight ≤ 105/100) then
    .error "bm25_weight and embedding_weight should sum to 1.0"
  else if r.base_k < r.mmr_k then .error "mmr_k cannot exceed base_k"
  else .ok r

/-- `load_retrieval_config`: validate, then build the
`AdaptiveRetrieverConfig` dataclass from the validated model dump. -/
def load_retrieval_config (r : RawRetrievalConfig) :
    Except String Retr.AdaptiveRetrieverConfig :=
  (validate r).map (fun v =>
    { base_k := v.base_k.toNat, mmr_k := v.mmr_k.toNat,
      mmr_lambda := v.mmr_lambda, score_threshold := v.score_threshold,
      min_high_score := v.min_high_score.toNat,
      dedupe_threshold := v.dedupe_threshold, use_hybrid := v.use_hybrid,
      bm25_weight := v.bm25_weight, embedding_weight := v.embedding_weight })

/-- The backend startup path: load the validated configuration, then
construct the engine.  A validation failure propagates — the engine is never
built. -/
def buildRetriever (vs : Retr.VSModel) (emb : Retr.EmbedFn)
    (r : RawRetrievalConfig) : Except String Retr.Retriever :=
  (load_retrieval_config r).map (fun cfg => Retr.AdaptiveRetriever.init vs emb cfg)

/-- The constraints the spec lists as validated. -/
def violatesConstraints (r : RawRetrievalConfig) : Prop :=
  r.base_k ≤ 0 ∨ r.min_high_score ≤ 0 ∨ r.mmr_k ≤ 0 ∨
  ¬ (0 ≤ r.score_threshold ∧ r.score_threshold ≤ 1) ∨
  ¬ (0 ≤ r.dedupe_threshold ∧ r.dedupe_threshold ≤ 1) ∨
  ¬ (0 ≤ r.mmr_lambda ∧ r.mmr_lambda ≤ 1) ∨
  ¬ (0 ≤ r.bm25_weight ∧ r.bm25_weight ≤ 1) ∨
  ¬ (0 ≤ r.embedding_weight ∧ r.embedding_weight ≤ 1) ∨
  (r.use_hybrid = true ∧
    ¬ (95/100 ≤ r.bm25_weight + r.embedding_weight ∧
       r.bm25_weight + r.embedding_weight ≤ 105/100)) ∨
  r.base_k < r.mmr_k

end Cfg

theorem validate_error_iff (r : Cfg.RawRetrievalConfig) :
    Cfg.violatesConstraints r ↔ ∃ msg, Cfg.validate r = Except.error msg := by
  constructor
  · intro hv
    unfold Cfg.validate
    by_cases h1 : r.base_k ≤ 0
    · rw [if_pos h1]; exact ⟨_, rfl⟩
    · rw [if_neg h1]
      by_cases h2 : r.min_high_score ≤ 0
      · rw [if_pos h2]; exact ⟨_, rfl⟩
      · rw [if_neg h2]
        by_cases h3 : r.mmr_k ≤ 0
        · rw [if_pos h3]; exact ⟨_, rfl⟩
        · rw [if_neg h3]
          by_cases h4 : ¬ (0 ≤ r.score_threshold ∧ r.score_threshold ≤ 1)
          · rw [if_pos h4]; exact ⟨_, rfl⟩
          · rw [if_neg h4]
            by_cases h5 : ¬ (0 ≤ r.dedupe_threshold ∧ r.dedupe_threshold ≤ 1)
            · rw [if_pos h5]; exact ⟨_, rfl⟩
            · rw [if_neg h5]
              by_cases h6 : ¬ (0 ≤ r.mmr_lambda ∧ r.mmr_lambda ≤ 1)
              · rw [if_pos h6]; exact ⟨_, rfl⟩
              · rw [if_neg h6]
                by_cases h7 : ¬ (0 ≤ r.bm25_weight ∧ r.bm25_weight ≤ 1)
                · rw [if_pos h7]; exact ⟨_, rfl⟩
                · rw [if_neg h7]
                  by_cases h8 : ¬ (0 ≤ r.embedding_weight ∧ r.embedding_weight ≤ 1)
                  · rw [if_pos h8]; exact ⟨_, rfl⟩
                  · rw [if_neg h8]
                    by_cases h9 : r.use_hybrid = true ∧
        ¬ (95/100 ≤ r.bm25_weight + r.embedding_weight ∧
           r.bm25_weight + r.embedding_weight ≤ 105/100)
                    · rw [if_pos h9]; exact ⟨_, rfl⟩
                    · rw [if_neg h9]
                      by_cases h10 : r.base_k < r.mmr_k
                      · rw [if_pos h10]; exact ⟨_, rfl⟩
                      · rw [if_neg h10]
                        exfalso
                        rcases hv with h | h | h | h | h | h | h | h | h | h
                        · exact absurd h h1
                        · exact absurd h h2
                        · exact absurd h h3
                        · exact absurd h h4
                        · exact absurd h h5
                        · exact absurd h h6
                        · exact absurd h h7
                        · exact absurd h h8
                        · exact absurd h h9
                        · exact absurd h h10
  · rintro ⟨msg, hmsg⟩
    by_contra hv
    have n1 : ¬ (r.base_k ≤ 0) := fun h => hv (Or.inl h)
    have n2 : ¬ (r.min_high_score ≤ 0) := fun h => hv (Or.inr (Or.inl h))
    have n3 : ¬ (r.mmr_k ≤ 0) := fun h => hv (Or.inr (Or.inr (Or.inl h)))
    have n4 : ¬ ¬ (0 ≤ r.score_threshold ∧ r.score_threshold ≤ 1) :=
      fun h => hv (Or.inr (Or.inr (Or.inr (Or.inl h))))
    have n5 : ¬ ¬ (0 ≤ r.dedupe_threshold ∧ r.dedupe_threshold ≤ 1) :=
      fun h => hv (Or.inr (Or.inr (Or.inr (Or.inr (Or.inl h)))))
    have n6 : ¬ ¬ (0 ≤ r.mmr_lambda ∧ r.mmr_lambda ≤ 1) :=
      fun h => hv (Or.inr (Or.inr (Or.inr (Or.inr (Or.inr (Or.inl h))))))
    have n7 : ¬ ¬ (0 ≤ r.bm25_weight ∧ r.bm25_weight ≤ 1) :=
      fun h => hv (Or.inr (Or.inr (Or.inr (Or.inr (Or.inr (Or.inr
        (Or.inl h)))))))
    have n8 : ¬ ¬ (0 ≤ r.embedding_weight ∧ r.embedding_weight ≤ 1) :=
      fun h => hv (Or.inr (Or.inr (Or.inr (Or.inr (Or.inr (Or.inr (Or.inr
        (Or.inl h))))))))
    have n9 : ¬ (r.use_hybrid = true ∧
        ¬ (95/100 ≤ r.bm25_weight + r.embedding_weight ∧
           r.bm25_weight + r.embedding_weight ≤ 105/100)) :=
      fun h => hv (Or.inr (Or.inr (Or.inr (Or.inr (Or.inr (Or.inr (Or.inr
        (Or.inr (Or.inl h)))))))))
    have n10 : ¬ (r.base_k < r.mmr_k) :=
      fun h => hv (Or.inr (Or.inr (Or.inr (Or.inr (Or.inr (Or.inr (Or.inr
        (Or.inr (Or.inr h)))))))))
    unfold Cfg.validate at hmsg
    rw [if_neg n1, if_neg n2, if_neg n3, if_neg n4, if_neg n5, if_neg n6,
      if_neg n7, if_neg n8, if_neg n9, if_neg n10] at hmsg
    exact absurd hmsg (by simp)

/-- C4: constructing the engine through the validated configuration path with
values violating the validated constraints (non-positive counts, thresholds or
weights outside the unit interval, weights not summing to approximately 1 in
hybrid mode, or result/diversity count `mmr_k` exceeding the pool size
`base_k`) fails with an error before the engine is built — and conversely the
construction succeeds exactly when no constraint is violated. -/
theorem config_validation_rejects (vs : Retr.VSModel) (emb : Retr.EmbedFn)
    (r : Cfg.RawRetrievalConfig) :
    Cfg.violatesConstraints r ↔
      ∃ msg, Cfg.buildRetriever vs emb r = Except.error msg := by
  rw [validate_error_iff]
  constructor
  · rintro ⟨msg, hmsg⟩
    refine ⟨msg, ?_⟩
    unfold Cfg.buildRetriever Cfg.load_retrieval_config
    rw [hmsg]
    rfl
  · rintro ⟨msg, hmsg⟩
    unfold Cfg.buildRetriever Cfg.load_retrieval_config at hmsg
    cases hval : Cfg.validate r with
    | ok v =>
      rw [hval] at hmsg
      exact absurd hmsg (by simp [Except.map])
    | error m => exact ⟨m, rfl⟩

/-! ## Diversifier Strategy B: cross-encoder max-pool rerank

`QueryEnricher.get_retrieved_artifacts` hands the decomposed sub-queries to
the retriever, but no cross-encoder rerank implementation exists anywhere
under the sources; the strategy is modelled from the spec below. -/

namespace Rerank

/-- Modelled from the spec: the repository sources contain no cross-encoder
max-pool rerank (spec §4.5, Diversifier Strategy B); only its caller
`QueryEnricher.get_retrieved_artifacts` exists.  Following the spec's words:
build the full cross product of (chunk × sub-query) pairs and batch-score
them with the pairwise relevance model, reshaped into a chunk-by-subquery
score matrix. -/
def scoreMatrix {α : Type} (scorer : α → String → ℚ) (chunks : List α)
    (subqueries : List String) : List (List ℚ) :=
  chunks.map (fun c => subqueries.map (fun q => scorer c q))

/-- Modelled from the spec: reduce one matrix row by its maximum — a chunk's
final score is the maximum over its per-sub-query scores. -/
def maxPool (row : List ℚ) : ℚ := row.max?.getD 0

/-- Modelled from the spec: each chunk paired with its max-pooled score. -/
def pooledScores {α : Type} (scorer : α → String → ℚ) (chunks : List α)
    (subqueries : List String) : List (α × ℚ) :=
  (chunks.zip (scoreMatrix scorer chunks subqueries)).map
    (fun p => (p.1, maxPool p.2))

/-- Modelled from the spec: filter chunks whose max score falls below
`rerank_threshold`, sort descending by max score, truncate to
`rerank_top_k`. -/
def maxPoolRerank {α : Type} (scorer : α → String → ℚ) (chunks : List α)
    (subqueries : List String) (rerank_threshold : ℚ)
    (rerank_top_k : Nat) : List (α × ℚ) :=
  (RagCV.sortDescBy (fun p => p.2)
    ((pooledScores scorer chunks subqueries).filter
      (fun p => decide (rerank_threshold ≤ p.2)))).take rerank_top_k

theorem pooledScores_pool {α : Type} (scorer : α → String → ℚ)
    (subqueries : List String) :
    ∀ (chunks : List α) (c : α) (r : ℚ),
      (c, r) ∈ pooledScores scorer chunks subqueries →
        r = maxPool (subqueries.map (fun q => scorer c q)) := by
  intro chunks
  induction chunks with
  | nil => intro c r h; simp [pooledScores, scoreMatrix] at h
  | cons x rest ih =>
    intro c r h
    simp only [pooledScores, scoreMatrix, List.map_cons, List.zip_cons_cons,
      List.map_cons, List.mem_cons] at h
    rcases h with h | h
    · rw [Prod.mk.injEq] at h
      obtain ⟨hc, hr⟩ := h
      subst hc
      exact hr
    · exact ih c r (by simpa [pooledScores, scoreMatrix] using h)

def c8scorer : Nat → String → ℚ := fun c q =>
  if c = 1 then (if q = "q1" then 1/10 else 9/10)
  else (if q = "q1" then 1/2 else 1/2)

theorem c8PooledEval :
    pooledScores c8scorer [1, 2] ["q1", "q2"] = [(1, 9/10), (2, 1/2)] := by
  norm_num [pooledScores, scoreMatrix, maxPool, c8scorer, List.max?,
    show ("q2" : String) ≠ "q1" by decide, sup_eq_max, max_def]

/-- C8: under the multi-sub-query rerank strategy (modelled from the spec),
every candidate chunk is scored against every sub-query and a chunk's pooled
score is the maximum over its per-sub-query scores; for 2 chunks and 2
sub-queries with score matrix `[[0.1, 0.9], [0.5, 0.5]]`, chunk 1 pools to
0.9 (not the 0.5 average) and chunk 2 pools to 0.5. -/
theorem maxpool_rerank_scores :
    (∀ (scorer : Nat → String → ℚ) (chunks : List Nat) (sqs : List String)
       (c : Nat) (r : ℚ), (c, r) ∈ pooledScores scorer chunks sqs →
         r = maxPool (sqs.map (fun q => scorer c q))) ∧
    scoreMatrix c8scorer [1, 2] ["q1", "q2"] = [[1/10, 9/10], [1/2, 1/2]] ∧
    pooledScores c8scorer [1, 2] ["q1", "q2"] = [(1, 9/10), (2, 1/2)] := by
  refine ⟨fun scorer chunks sqs c r h => pooledScores_pool scorer sqs chunks c r h,
    ?_, c8PooledEval⟩
  norm_num [scoreMatrix, c8scorer, show ("q2" : String) ≠ "q1" by decide]

/-- Witness for `maxpool_rerank_scores`: the membership hypothesis of the
universal part discharged at chunk 1 of the concrete matrix. -/
theorem maxpool_rerank_scores_witness :
    ((1, (9/10 : ℚ)) ∈ pooledScores c8scorer [1, 2] ["q1", "q2"]) ∧
    (9/10 : ℚ) = maxPool (["q1", "q2"].map (fun q => c8scorer 1 q)) := by
  have hm : ((1, (9/10 : ℚ)) ∈ pooledScores c8scorer [1, 2] ["q1", "q2"]) := by
    rw [c8PooledEval]; simp
  exact ⟨hm, maxpool_rerank_scores.1 c8scorer [1, 2] ["q1", "q2"] 1 (9/10) hm⟩

end Rerank

namespace Retr

/-! ### Adaptive expansion (`adaptive_retrieval`, lines 101–119) -/

/-- The threshold filter: keep candidates with `score >= score_threshold`
(scores are always present in this embedding; the source's `is not None`
guard never fires for the modelled vectorstores). -/
def filterByThreshold (cfg : AdaptiveRetrieverConfig)
    (candidates : List Cand) : List Cand :=
  candidates.filter (fun c => decide (cfg.score_threshold ≤ c.2))

/-- `merged[id(doc)] = (doc, score)`: python-dict assignment — an existing
key is overwritten in place, a new key is appended. -/
def dictSet : RrfDict → Cand → RrfDict
  | [], c => [(c.1.docId, c)]
  | (k, e) :: rest, c =>
    if k = c.1.docId then (k, c) :: rest else (k, e) :: dictSet rest c

/-- The expansion merge: build the dict from the filtered candidates, then
assign every expanded result over it (overwriting on identity conflicts),
and take the values in insertion order. -/
def mergeById (filtered expanded : List Cand) : List Cand :=
  (expanded.foldl dictSet (filtered.foldl dictSet [])).map (fun p => p.2)

/-- The expansion branch of `adaptive_retrieval`: when fewer than
`min_high_score` candidates survive the filter, run the plain dense
vectorstore search once at `2 * base_k`, merge by identity, and re-sort
descending (stable). -/
def expandStep (searchFn : String → Nat → List Cand) (query : String)
    (cfg : AdaptiveRetrieverConfig) (filtered : List Cand) : List Cand :=
  if filtered.length < cfg.min_high_score then
    RagCV.sortDescBy (fun c => c.2)
      (mergeById filtered (searchFn query (cfg.base_k * 2)))
  else filtered

/-- How many expanded searches `adaptive_retrieval` issues for a given
filtered candidate list: one beneath the trigger, zero otherwise — there is
no retry loop. -/
def expansionCount (cfg : AdaptiveRetrieverConfig)
    (filtered : List Cand) : Nat :=
  if filtered.length < cfg.min_high_score then 1 else 0

theorem findRrf_dictSet (m : RrfDict) (c : Cand) (k : Nat) :
    findRrf k (dictSet m c) =
      if c.1.docId = k then some c else findRrf k m := by
  induction m with
  | nil =>
    by_cases h : c.1.docId = k
    · simp [dictSet, findRrf, h]
    · simp [dictSet, findRrf, h]
  | cons p rest ih =>
    obtain ⟨k0, e⟩ := p
    by_cases hk0 : k0 = c.1.docId
    · by_cases hk : k0 = k
      · have hck : c.1.docId = k := hk0.symm.trans hk
        simp [dictSet, findRrf, hk0, hk, hck]
      · have hck : ¬ c.1.docId = k := fun h => hk (hk0.trans h)
        simp [dictSet, findRrf, hk0, hk, hck]
    · by_cases hk : k0 = k
      · subst hk
        have hck : ¬ c.1.docId = k0 := fun h => hk0 h.symm
        simp [dictSet, findRrf, hk0, hck]
      · simp [dictSet, findRrf, hk0, hk, ih]

theorem findRrf_foldl_dictSet_notmem (k : Nat) :
    ∀ (l : List Cand) (m : RrfDict), k ∉ candIds l →
      findRrf k (l.foldl dictSet m) = findRrf k m := by
  intro l
  induction l with
  | nil => intro m _; rfl
  | cons c rest ih =>
    intro m hk
    have hc : ¬ c.1.docId = k := by
      intro h; exact hk (by simp [candIds, h])
    have hrest : k ∉ candIds rest := by
      intro h; exact hk (by simp [candIds] at h ⊢; exact Or.inr h)
    rw [List.foldl_cons, ih _ hrest, findRrf_dictSet, if_neg hc]

theorem findRrf_foldl_dictSet_mem :
    ∀ (l : List Cand), (candIds l).Nodup → ∀ c ∈ l, ∀ (m : RrfDict),
      findRrf c.1.docId (l.foldl dictSet m) = some c := by
  intro l
  induction l with
  | nil => intro _ c hc; exact absurd hc (List.not_mem_nil c)
  | cons x rest ih =>
    intro hnd c hc m
    simp only [candIds, List.map_cons, List.nodup_cons] at hnd
    rcases List.mem_cons.mp hc with hhead | htail
    · subst hhead
      have hnot : c.1.docId ∉ candIds rest := hnd.1
      rw [List.foldl_cons, findRrf_foldl_dictSet_notmem _ _ _ hnot,
        findRrf_dictSet, if_pos rfl]
    · rw [List.foldl_cons]
      exact ih hnd.2 c htail _

theorem mem_values_of_findRrf (k : Nat) (c : Cand) :
    ∀ (m : RrfDict), findRrf k m = some c → c ∈ m.map (fun p => p.2) := by
  intro m
  induction m with
  | nil => intro h; exact absurd h (by simp [findRrf])
  | cons p rest ih =>
    intro h
    obtain ⟨k0, e⟩ := p
    by_cases hk : k0 = k
    · rw [findRrf, if_pos hk] at h
      injection h with h
      simp [h]
    · rw [findRrf, if_neg hk] at h
      simp only [List.map_cons, List.mem_cons]
      exact Or.inr (ih h)

theorem mergeById_mem_expanded (filtered expanded : List Cand)
    (hnd : (candIds expanded).Nodup) :
    ∀ c ∈ expanded, c ∈ mergeById filtered expanded := by
  intro c hc
  exact mem_values_of_findRrf _ c _
    (findRrf_foldl_dictSet_mem expanded hnd c hc _)

theorem mergeById_mem_filtered (filtered expanded : List Cand)
    (hndF : (candIds filtered).Nodup) :
    ∀ c ∈ filtered, c.1.docId ∉ candIds expanded →
      c ∈ mergeById filtered expanded := by
  intro c hc hnot
  unfold mergeById
  apply mem_values_of_findRrf c.1.docId c
  rw [findRrf_foldl_dictSet_notmem _ expanded _ hnot]
  exact findRrf_foldl_dictSet_mem filtered hndF c hc []

/-- C2 (amended): when fewer than `min_high_score` filtered candidates
remain, the engine runs the plain dense vectorstore search exactly once with
a doubled pool size `2 * base_k` (not the Fusion Engine, even in hybrid
mode), merges it with the original filtered set as a union by identity in
which a chunk present in both keeps the score from the *expanded* search
(python-dict overwrite, not the higher score), re-sorts by score descending
(stably), and never performs more than one expansion per retrieval call. -/
theorem expansion_amended (searchFn : String → Nat → List Cand)
    (query : String) (cfg : AdaptiveRetrieverConfig) (filtered : List Cand)
    (htrig : filtered.length < cfg.min_high_score)
    (hndF : (candIds filtered).Nodup)
    (hndE : (candIds (searchFn query (cfg.base_k * 2))).Nodup) :
    (expandStep searchFn query cfg filtered =
      RagCV.sortDescBy (fun c => c.2)
        (mergeById filtered (searchFn query (cfg.base_k * 2)))) ∧
    (∀ c ∈ searchFn query (cfg.base_k * 2),
      c ∈ mergeById filtered (searchFn query (cfg.base_k * 2))) ∧
    (∀ c ∈ filtered, c.1.docId ∉ candIds (searchFn query (cfg.base_k * 2)) →
      c ∈ mergeById filtered (searchFn query (cfg.base_k * 2))) ∧
    ((expandStep searchFn query cfg filtered).Pairwise
      (fun a b => b.2 ≤ a.2)) ∧
    (∀ (cfg2 : AdaptiveRetrieverConfig) (f2 : List Cand),
      expansionCount cfg2 f2 ≤ 1) := by
  refine ⟨by rw [expandStep, if_pos htrig],
    mergeById_mem_expanded _ _ hndE,
    mergeById_mem_filtered _ _ hndF,
    ?_, ?_⟩
  · rw [expandStep, if_pos htrig]
    exact RagCV.sortDescBy_sorted _ _
  · intro cfg2 f2
    unfold expansionCount
    by_cases h : f2.length < cfg2.min_high_score
    · rw [if_pos h]
    · rw [if_neg h]; omega

def c2search : String → Nat → List Cand :=
  fun _ k => if k = 20 then [(⟨7, "x"⟩, 1/5)] else []

/-- Witness for `expansion_amended` at a one-candidate filtered set whose
sole chunk also appears in the expanded search. -/
theorem expansion_amended_witness :
    ([((⟨7, "x"⟩ : Doc), (9/10 : ℚ))].length <
        ({} : AdaptiveRetrieverConfig).min_high_score ∧
      (candIds [(⟨7, "x"⟩, (9/10 : ℚ))]).Nodup ∧
      (candIds (c2search "q"
        (({} : AdaptiveRetrieverConfig).base_k * 2))).Nodup) ∧
    expandStep c2search "q" {} [(⟨7, "x"⟩, 9/10)] =
      RagCV.sortDescBy (fun c => c.2)
        (mergeById [(⟨7, "x"⟩, 9/10)]
          (c2search "q" (({} : AdaptiveRetrieverConfig).base_k * 2))) := by
  refine ⟨⟨by norm_num, by decide, by decide⟩, ?_⟩
  exact (expansion_amended c2search "q" {} [(⟨7, "x"⟩, 9/10)]
    (by norm_num) (by decide) (by decide)).1

/-- Counterexample to C2 as stated: chunk id 7 is in the original filtered
set with score 9/10 and comes back from the expanded search with score 1/5;
the merged, re-sorted candidate list records 1/5 — the union does not keep
the higher score on an identity conflict, it keeps the expanded search's
score (python-dict overwrite).  (The expansion moreover queries the plain
dense vectorstore search, not the Fusion Engine: `expandStep` is invoked on
the raw `search` callable in `adaptive_retrieval` below, also when hybrid
fusion produced the original candidates.) -/
theorem expansion_merge_counterexample :
    expandStep c2search "q" {} [(⟨7, "x"⟩, 9/10)] = [(⟨7, "x"⟩, 1/5)] ∧
    (⟨7, "x"⟩, (9/10 : ℚ)) ∉ expandStep c2search "q" {} [(⟨7, "x"⟩, 9/10)] ∧
    (1/5 : ℚ) < 9/10 := by
  have he : expandStep c2search "q" {} [(⟨7, "x"⟩, 9/10)] =
      [(⟨7, "x"⟩, 1/5)] := by
    rw [expandStep, if_pos (by norm_num)]
    rw [show c2search "q" (({} : AdaptiveRetrieverConfig).base_k * 2) =
      [(⟨7, "x"⟩, 1/5)] from rfl]
    norm_num [mergeById, dictSet, RagCV.sortDescBy, RagCV.insertDescBy,
      List.foldl]
  refine ⟨he, ?_, by norm_num⟩
  rw [he]
  norm_num

end Retr

namespace Retr

/-! ### Deduplication (`deduplicate_chunks`) -/

/-- Evaluation helper for `cosSim` at vectors with rational norms. -/
theorem cosSim_eq (a b : List ℚ) (na nb : ℚ) (ha : normSq a = na * na)
    (hb : normSq b = nb * nb) (hna : 0 ≤ na) (hnb : 0 ≤ nb)
    (h0 : na * nb ≠ 0) :
    cosSim a b = ((dotQ a b : ℚ) : ℝ) / ((na * nb : ℚ) : ℝ) := by
  unfold cosSim
  have h1 : Real.sqrt ((normSq a : ℚ) : ℝ) = ((na : ℚ) : ℝ) := by
    rw [ha]
    push_cast
    exact Real.sqrt_mul_self (by exact_mod_cast hna)
  have h2 : Real.sqrt ((normSq b : ℚ) : ℝ) = ((nb : ℚ) : ℝ) := by
    rw [hb]
    push_cast
    exact Real.sqrt_mul_self (by exact_mod_cast hnb)
  rw [h1, h2]
  have hne : ((na : ℚ) : ℝ) * ((nb : ℚ) : ℝ) ≠ 0 := by
    intro h
    exact h0 (by exact_mod_cast h)
  rw [if_neg hne]
  push_cast
  ring

/-- The inner loop of `deduplicate_chunks` for one seed `x`: split the
not-yet-skipped later candidates into those with `cos_sim >= threshold`
against the seed's vector (absorbed into the cluster, in order) and the
rest, preserving order. -/
noncomputable def absorb (emb : EmbedFn) (t : ℚ) (x : Doc) :
    List Cand → List Cand × List Cand
  | [] => ([], [])
  | y :: ys =>
    let p := absorb emb t x ys
    if ((t : ℚ) : ℝ) ≤ cosSim (emb x.content) (emb y.1.content) then
      (y :: p.1, p.2)
    else (p.1, y :: p.2)

/-- The representative swap: walk the absorbed candidates in order and
replace the representative whenever a strictly higher score appears. -/
def dedupRep (x : Cand) (s : List Cand) : Cand :=
  s.foldl (fun acc y => if acc.2 < y.2 then y else acc) x

theorem absorb_snd_length (emb : EmbedFn) (t : ℚ) (x : Doc) :
    ∀ (l : List Cand), (absorb emb t x l).2.length ≤ l.length := by
  intro l
  induction l with
  | nil => simp [absorb]
  | cons y ys ih =>
    rw [absorb]
    by_cases h : ((t : ℚ) : ℝ) ≤ cosSim (emb x.content) (emb y.1.content)
    · simp only [if_pos h]
      exact Nat.le_succ_of_le ih
    · simp only [if_neg h, List.length_cons]
      exact Nat.succ_le_succ ih

/-- The outer loop of `deduplicate_chunks`: each unskipped candidate in turn
becomes a seed, absorbs all later similar candidates, and contributes its
cluster representative. -/
noncomputable def dedupGo (emb : EmbedFn) (t : ℚ) : List Cand → List Cand
  | [] => []
  | x :: rest =>
    dedupRep x (absorb emb t x.1 rest).1 ::
      dedupGo emb t (absorb emb t x.1 rest).2
  termination_by l => l.length
  decreasing_by
    simp_wf
    exact Nat.lt_succ_of_le (absorb_snd_length _ _ _ _)

/-- `deduplicate_chunks`. -/
noncomputable def deduplicate_chunks (emb : EmbedFn) (t : ℚ)
    (candidates : List Cand) : List Cand :=
  if candidates.length ≤ 1 then candidates else dedupGo emb t candidates

end Retr

namespace Retr

theorem absorb_fst_spec (emb : EmbedFn) (t : ℚ) (x : Doc) :
    ∀ (l : List Cand), ∀ y ∈ (absorb emb t x l).1,
      (((t : ℚ) : ℝ) ≤ cosSim (emb x.content) (emb y.1.content)) ∧ y ∈ l := by
  intro l
  induction l with
  | nil => intro y hy; simp [absorb] at hy
  | cons z zs ih =>
    intro y hy
    rw [absorb] at hy
    by_cases h : ((t : ℚ) : ℝ) ≤ cosSim (emb x.content) (emb z.1.content)
    · simp only [if_pos h] at hy
      rcases List.mem_cons.mp hy with h1 | h1
      · subst h1; exact ⟨h, List.mem_cons_self _ _⟩
      · obtain ⟨hs, hm⟩ := ih y h1
        exact ⟨hs, List.mem_cons_of_mem _ hm⟩
    · simp only [if_neg h] at hy
      obtain ⟨hs, hm⟩ := ih y hy
      exact ⟨hs, List.mem_cons_of_mem _ hm⟩

theorem absorb_snd_spec (emb : EmbedFn) (t : ℚ) (x : Doc) :
    ∀ (l : List Cand), ∀ y ∈ (absorb emb t x l).2,
      ¬ (((t : ℚ) : ℝ) ≤ cosSim (emb x.content) (emb y.1.content)) ∧ y ∈ l := by
  intro l
  induction l with
  | nil => intro y hy; simp [absorb] at hy
  | cons z zs ih =>
    intro y hy
    rw [absorb] at hy
    by_cases h : ((t : ℚ) : ℝ) ≤ cosSim (emb x.content) (emb z.1.content)
    · simp only [if_pos h] at hy
      obtain ⟨hs, hm⟩ := ih y hy
      exact ⟨hs, List.mem_cons_of_mem _ hm⟩
    · simp only [if_neg h] at hy
      rcases List.mem_cons.mp hy with h1 | h1
      · subst h1; exact ⟨h, List.mem_cons_self _ _⟩
      · obtain ⟨hs, hm⟩ := ih y h1
        exact ⟨hs, List.mem_cons_of_mem _ hm⟩

theorem absorb_snd_sublist (emb : EmbedFn) (t : ℚ) (x : Doc) :
    ∀ (l : List Cand), List.Sublist (absorb emb t x l).2 l := by
  intro l
  induction l with
  | nil => simp [absorb]
  | cons z zs ih =>
    rw [absorb]
    by_cases h : ((t : ℚ) : ℝ) ≤ cosSim (emb x.content) (emb z.1.content)
    · simp only [if_pos h]
      exact List.Sublist.cons z ih
    · simp only [if_neg h]
      exact List.Sublist.cons₂ z ih

theorem absorb_of_none (emb : EmbedFn) (t : ℚ) (x : Doc) :
    ∀ (l : List Cand),
      (∀ y ∈ l, ¬ (((t : ℚ) : ℝ) ≤ cosSim (emb x.content) (emb y.1.content))) →
      absorb emb t x l = ([], l) := by
  intro l
  induction l with
  | nil => intro _; rfl
  | cons z zs ih =>
    intro hall
    rw [absorb, ih (fun y hy => hall y (List.mem_cons_of_mem _ hy)),
      if_neg (hall z (List.mem_cons_self _ _))]

theorem dedupRep_mem : ∀ (s : List Cand) (x : Cand), dedupRep x s ∈ x :: s := by
  intro s
  induction s with
  | nil => intro x; simp [dedupRep]
  | cons y ys ih =>
    intro x
    rw [dedupRep, List.foldl_cons]
    by_cases h : x.2 < y.2
    · simp only [if_pos h]
      have := ih y
      rw [dedupRep] at this
      rcases List.mem_cons.mp this with h1 | h1
      · rw [h1]; simp
      · simp [h1]
    · simp only [if_neg h]
      have := ih x
      rw [dedupRep] at this
      rcases List.mem_cons.mp this with h1 | h1
      · rw [h1]; simp
      · simp [h1]

theorem dedupRep_of_sorted :
    ∀ (s : List Cand) (x : Cand), (∀ y ∈ s, y.2 ≤ x.2) → dedupRep x s = x := by
  intro s
  induction s with
  | nil => intro x _; rfl
  | cons y ys ih =>
    intro x hall
    rw [dedupRep, List.foldl_cons,
      if_neg (not_lt.mpr (hall y (List.mem_cons_self _ _)))]
    exact ih x (fun z hz => hall z (List.mem_cons_of_mem _ hz))

theorem dedupGo_subset (emb : EmbedFn) (t : ℚ) :
    ∀ (n : Nat) (l : List Cand), l.length ≤ n →
      ∀ z ∈ dedupGo emb t l, z ∈ l := by
  intro n
  induction n with
  | zero =>
    intro l hl z hz
    rw [List.length_eq_zero.mp (Nat.le_zero.mp hl)] at hz ⊢
    simpa [dedupGo] using hz
  | succ n ih =>
    intro l hl z hz
    cases l with
    | nil => simpa [dedupGo] using hz
    | cons x rest =>
      rw [dedupGo] at hz
      rcases List.mem_cons.mp hz with h1 | h1
      · rcases List.mem_cons.mp (h1 ▸ dedupRep_mem (absorb emb t x.1 rest).1 x)
          with h2 | h2
        · simp [h2]
        · exact List.mem_cons_of_mem _ ((absorb_fst_spec emb t x.1 rest z h2).2)
      · have hlen : (absorb emb t x.1 rest).2.length ≤ n :=
          le_trans (absorb_snd_length emb t x.1 rest)
            (Nat.le_of_succ_le_succ hl)
        have := ih _ hlen z h1
        exact List.mem_cons_of_mem _ ((absorb_snd_spec emb t x.1 rest z this).2)

theorem dedupGo_pairwise (emb : EmbedFn) (t : ℚ) :
    ∀ (n : Nat) (l : List Cand), l.length ≤ n →
      l.Pairwise (fun a b => b.2 ≤ a.2) →
      (dedupGo emb t l).Pairwise
        (fun a b => ¬ (((t : ℚ) : ℝ) ≤ cosSim (emb a.1.content) (emb b.1.content))) := by
  intro n
  induction n with
  | zero =>
    intro l hl _
    rw [List.length_eq_zero.mp (Nat.le_zero.mp hl)]
    simp [dedupGo]
  | succ n ih =>
    intro l hl hsort
    cases l with
    | nil => simp [dedupGo]
    | cons x rest =>
      rcases List.pairwise_cons.mp hsort with ⟨hx, hrest⟩
      have hrep : dedupRep x (absorb emb t x.1 rest).1 = x :=
        dedupRep_of_sorted _ x
          (fun y hy => hx y (absorb_fst_spec emb t x.1 rest y hy).2)
      rw [dedupGo, hrep]
      refine List.pairwise_cons.mpr ⟨?_, ?_⟩
      · intro z hz
        have hlen : (absorb emb t x.1 rest).2.length ≤ n :=
          le_trans (absorb_snd_length emb t x.1 rest)
            (Nat.le_of_succ_le_succ hl)
        have hzr := dedupGo_subset emb t n _ hlen z hz
        exact (absorb_snd_spec emb t x.1 rest z hzr).1
      · have hlen : (absorb emb t x.1 rest).2.length ≤ n :=
          le_trans (absorb_snd_length emb t x.1 rest)
            (Nat.le_of_succ_le_succ hl)
        exact ih _ hlen (hrest.sublist (absorb_snd_sublist emb t x.1 rest))

theorem dedupGo_noop (emb : EmbedFn) (t : ℚ) :
    ∀ (n : Nat) (l : List Cand), l.length ≤ n →
      l.Pairwise
        (fun a b => ¬ (((t : ℚ) : ℝ) ≤ cosSim (emb a.1.content) (emb b.1.content))) →
      dedupGo emb t l = l := by
  intro n
  induction n with
  | zero =>
    intro l hl _
    rw [List.length_eq_zero.mp (Nat.le_zero.mp hl)]
    simp [dedupGo]
  | succ n ih =>
    intro l hl hpair
    cases l with
    | nil => simp [dedupGo]
    | cons x rest =>
      rcases List.pairwise_cons.mp hpair with ⟨hx, hrest⟩
      have habs : absorb emb t x.1 rest = ([], rest) :=
        absorb_of_none emb t x.1 rest hx
      rw [dedupGo, habs]
      show dedupRep x [] :: dedupGo emb t rest = x :: rest
      rw [show dedupRep x [] = x from rfl,
        ih rest (Nat.le_of_succ_le_succ hl) hrest]

/-- C5 (amended): for every candidate list ordered by non-increasing score —
the order in which `adaptive_retrieval` always invokes it — the Deduplicator
is idempotent: no pair of its output chunks has cosine similarity at or above
the dedup threshold, and a second run on the output (same embedding function
and threshold) returns it unchanged. -/
theorem dedup_idempotent_sorted (emb : EmbedFn) (t : ℚ) (c : List Cand)
    (hsort : c.Pairwise (fun a b => b.2 ≤ a.2)) :
    (deduplicate_chunks emb t c).Pairwise
      (fun a b => ¬ (((t : ℚ) : ℝ) ≤ cosSim (emb a.1.content) (emb b.1.content))) ∧
    deduplicate_chunks emb t (deduplicate_chunks emb t c) =
      deduplicate_chunks emb t c := by
  unfold deduplicate_chunks
  by_cases h1 : c.length ≤ 1
  · rw [if_pos h1]
    constructor
    · cases c with
      | nil => simp
      | cons x rest =>
        cases rest with
        | nil => simp
        | cons y ys => simp at h1
    · rw [if_pos h1]
  · rw [if_neg h1]
    have hpair := dedupGo_pairwise emb t c.length c (le_refl _) hsort
    refine ⟨hpair, ?_⟩
    by_cases h2 : (dedupGo emb t c).length ≤ 1
    · rw [if_pos h2]
    · rw [if_neg h2]
      exact dedupGo_noop emb t (dedupGo emb t c).length _ (le_refl _) hpair

end Retr

namespace Retr

/-- A concrete embedding collaborator: three texts mapped to vectors of norm
5 so all cosines are rational. -/
def embC : EmbedFn := fun s =>
  if s = "a" then [5, 0]
  else if s = "b" then [4, 3]
  else if s = "c" then [3, 4]
  else []

theorem c5simAB : cosSim (embC "a") (embC "b") = 4/5 := by
  rw [show embC "a" = [5, 0] from rfl, show embC "b" = [4, 3] from rfl]
  rw [cosSim_eq [5, 0] [4, 3] 5 5 (by norm_num [normSq, dotQ])
    (by norm_num [normSq, dotQ]) (by norm_num) (by norm_num) (by norm_num)]
  norm_num [dotQ]

theorem c5simAC : cosSim (embC "a") (embC "c") = 3/5 := by
  rw [show embC "a" = [5, 0] from rfl, show embC "c" = [3, 4] from rfl]
  rw [cosSim_eq [5, 0] [3, 4] 5 5 (by norm_num [normSq, dotQ])
    (by norm_num [normSq, dotQ]) (by norm_num) (by norm_num) (by norm_num)]
  norm_num [dotQ]

theorem c5simBC : cosSim (embC "b") (embC "c") = 24/25 := by
  rw [show embC "b" = [4, 3] from rfl, show embC "c" = [3, 4] from rfl]
  rw [cosSim_eq [4, 3] [3, 4] 5 5 (by norm_num [normSq, dotQ])
    (by norm_num [normSq, dotQ]) (by norm_num) (by norm_num) (by norm_num)]
  norm_num [dotQ]

/-- Witness for `dedup_idempotent_sorted` on a descending-score triple. -/
theorem dedup_idempotent_sorted_witness :
    ([((⟨1, "a"⟩ : Doc), (3 : ℚ)), (⟨2, "b"⟩, 2), (⟨3, "c"⟩, 1)].Pairwise
      (fun a b => b.2 ≤ a.2)) ∧
    deduplicate_chunks embC (3/4)
        (deduplicate_chunks embC (3/4)
          [(⟨1, "a"⟩, 3), (⟨2, "b"⟩, 2), (⟨3, "c"⟩, 1)]) =
      deduplicate_chunks embC (3/4)
        [(⟨1, "a"⟩, 3), (⟨2, "b"⟩, 2), (⟨3, "c"⟩, 1)] := by
  have hsort : ([((⟨1, "a"⟩ : Doc), (3 : ℚ)), (⟨2, "b"⟩, 2), (⟨3, "c"⟩, 1)].Pairwise
      (fun a b => b.2 ≤ a.2)) := by
    norm_num [List.pairwise_cons]
  exact ⟨hsort,
    (dedup_idempotent_sorted embC (3/4)
      [(⟨1, "a"⟩, 3), (⟨2, "b"⟩, 2), (⟨3, "c"⟩, 1)] hsort).2⟩

theorem c5absorbA :
    absorb embC (3/4) ⟨1, "a"⟩ [((⟨2, "b"⟩ : Doc), (2 : ℚ)), (⟨3, "c"⟩, 3)] =
      ([(⟨2, "b"⟩, 2)], [(⟨3, "c"⟩, 3)]) := by
  simp only [absorb, c5simAB, c5simAC]
  norm_num

theorem c5absorbB :
    absorb embC (3/4) ⟨2, "b"⟩ [((⟨3, "c"⟩ : Doc), (3 : ℚ))] =
      ([(⟨3, "c"⟩, 3)], []) := by
  simp only [absorb, c5simBC]
  norm_num

theorem c5firstRun :
    dedupGo embC (3/4) [(⟨1, "a"⟩, 1), (⟨2, "b"⟩, 2), (⟨3, "c"⟩, 3)] =
      [(⟨2, "b"⟩, 2), (⟨3, "c"⟩, 3)] := by
  rw [dedupGo, c5absorbA]
  rw [show dedupRep (⟨1, "a"⟩, 1) [((⟨2, "b"⟩ : Doc), (2 : ℚ))] =
      (⟨2, "b"⟩, 2) by
    rw [dedupRep, List.foldl_cons, if_pos (by norm_num)]
    rfl]
  rw [dedupGo]
  rw [show absorb embC (3/4) (⟨3, "c"⟩ : Doc) ([] : List Cand) = ([], []) from rfl]
  rw [dedupGo]
  rfl

theorem c5secondRun :
    dedupGo embC (3/4) [(⟨2, "b"⟩, 2), (⟨3, "c"⟩, 3)] = [(⟨3, "c"⟩, 3)] := by
  rw [dedupGo, c5absorbB]
  rw [show dedupRep (⟨2, "b"⟩, 2) [((⟨3, "c"⟩ : Doc), (3 : ℚ))] =
      (⟨3, "c"⟩, 3) by
    rw [dedupRep, List.foldl_cons, if_pos (by norm_num)]
    rfl]
  rw [dedupGo]

/-- Counterexample to C5 as stated ("for every candidate list"): on the
ascending-score list A(1), B(2), C(3) with sim(A,B) = 4/5 ≥ 3/4,
sim(A,C) = 3/5 < 3/4, sim(B,C) = 24/25 ≥ 3/4, the first run seeds on A,
absorbs B, swaps the representative to the higher-scoring B and keeps C —
output [B, C] in which the pair (B, C) still has similarity 24/25 ≥ 3/4, so
the second run collapses it to [C]: running the Deduplicator on its own
output changes it. -/
theorem dedup_not_idempotent_counterexample :
    deduplicate_chunks embC (3/4)
        (deduplicate_chunks embC (3/4)
          [(⟨1, "a"⟩, 1), (⟨2, "b"⟩, 2), (⟨3, "c"⟩, 3)]) ≠
      deduplicate_chunks embC (3/4)
        [(⟨1, "a"⟩, 1), (⟨2, "b"⟩, 2), (⟨3, "c"⟩, 3)] ∧
    ((3/4 : ℚ) : ℝ) ≤ cosSim (embC "b") (embC "c") := by
  have h1 : deduplicate_chunks embC (3/4)
      [(⟨1, "a"⟩, 1), (⟨2, "b"⟩, 2), (⟨3, "c"⟩, 3)] =
      [(⟨2, "b"⟩, 2), (⟨3, "c"⟩, 3)] := by
    rw [deduplicate_chunks, if_neg (by norm_num), c5firstRun]
  have h2 : deduplicate_chunks embC (3/4) [(⟨2, "b"⟩, 2), (⟨3, "c"⟩, 3)] =
      [(⟨3, "c"⟩, 3)] := by
    rw [deduplicate_chunks, if_neg (by norm_num), c5secondRun]
  constructor
  · rw [h1, h2]
    simp
  · rw [c5simBC]
    norm_num

end Retr

namespace Retr

/-! ### MMR selection (`mmr_selection`) -/

/-- `np.argmax` over a float array: index of the first maximal element. -/
def argmaxQ : List ℚ → Nat
  | [] => 0
  | x :: rest => if x < rest.getD (argmaxQ rest) x then argmaxQ rest + 1 else 0

/-- `np.argmax` over the MMR score array, where `⊥` embeds `-math.inf`
(assigned only to already-selected indices). -/
noncomputable def argmaxW : List (WithBot ℝ) → Nat
  | [] => 0
  | x :: rest => if x < rest.getD (argmaxW rest) ⊥ then argmaxW rest + 1 else 0

theorem argmaxQ_lt_length : ∀ (l : List ℚ), l ≠ [] → argmaxQ l < l.length := by
  intro l
  induction l with
  | nil => intro h; exact absurd rfl h
  | cons x rest ih =>
    intro _
    rw [argmaxQ]
    by_cases h : x < rest.getD (argmaxQ rest) x
    · rw [if_pos h]
      have hne : rest ≠ [] := by
        intro he
        rw [he] at h
        exact lt_irrefl x h
      exact Nat.succ_lt_succ (ih hne)
    · rw [if_neg h]
      exact Nat.succ_pos _

theorem argmaxW_lt_length : ∀ (l : List (WithBot ℝ)), l ≠ [] →
    argmaxW l < l.length := by
  intro l
  induction l with
  | nil => intro h; exact absurd rfl h
  | cons x rest ih =>
    intro _
    rw [argmaxW]
    by_cases h : x < rest.getD (argmaxW rest) ⊥
    · rw [if_pos h]
      have hne : rest ≠ [] := by
        intro he
        rw [he] at h
        simp at h
      exact Nat.succ_lt_succ (ih hne)
    · rw [if_neg h]
      exact Nat.succ_pos _

theorem argmaxW_spec : ∀ (l : List (WithBot ℝ)) (j : Nat), j < l.length →
    l.getD j ⊥ ≤ l.getD (argmaxW l) ⊥ := by
  intro l
  induction l with
  | nil => intro j hj; simp at hj
  | cons x rest ih =>
    intro j hj
    rw [argmaxW]
    by_cases h : x < rest.getD (argmaxW rest) ⊥
    · rw [if_pos h]
      cases j with
      | zero => simpa using le_of_lt h
      | succ j =>
        have := ih j (Nat.lt_of_succ_lt_succ hj)
        simpa using this
    · rw [if_neg h]
      cases j with
      | zero => simp
      | succ j =>
        have h1 := ih j (Nat.lt_of_succ_lt_succ hj)
        have h2 := le_of_not_lt h
        simpa using le_trans h1 h2

/-- The default candidate used for in-range indexing (`candidates[i]` never
goes out of range in the source). -/
def dummyCand : Cand := (⟨0, ""⟩, 0)

/-- One pass of the inner score computation: `-inf` (`⊥`) at selected
indices, else `mmr_lambda * relevance[idx] - (1 - mmr_lambda) *
max(cos_sim(vectors[idx], vectors[sel]) for sel in selected)`. -/
noncomputable def mmrScoreList (emb : EmbedFn) (lam : ℚ) (cands : List Cand)
    (sel : List Nat) : List (WithBot ℝ) :=
  (List.range cands.length).map (fun i =>
    if i ∈ sel then (⊥ : WithBot ℝ)
    else
      ((((lam : ℚ) : ℝ) * (((cands.map (fun c => c.2)).getD i 0 : ℚ) : ℝ) -
        (1 - ((lam : ℚ) : ℝ)) *
          ((sel.map (fun j =>
            cosSim ((cands.map (fun c => emb c.1.content)).getD i [])
              ((cands.map (fun c => emb c.1.content)).getD j []))).max?.getD 0)
        : ℝ) : WithBot ℝ))

/-- The `while len(selected) < k` loop: compute the score array, take the
first argmax, stop if it is `-inf`, else select it.  The fuel equals `k`,
which bounds the iteration count since every step appends one index. -/
noncomputable def mmrLoop (emb : EmbedFn) (lam : ℚ) (cands : List Cand)
    (k : Nat) : Nat → List Nat → List Nat
  | 0, sel => sel
  | fuel + 1, sel =>
    if sel.length < k then
      if (mmrScoreList emb lam cands sel).getD
          (argmaxW (mmrScoreList emb lam cands sel)) ⊥ = ⊥ then sel
      else
        mmrLoop emb lam cands k fuel
          (sel ++ [argmaxW (mmrScoreList emb lam cands sel)])
    else sel

/-- `mmr_selection`. -/
noncomputable def mmr_selection (emb : EmbedFn) (cands : List Cand)
    (mmr_k : Nat) (lam : ℚ) : List Cand :=
  if min mmr_k cands.length = 0 then []
  else
    (mmrLoop emb lam cands (min mmr_k cands.length) (min mmr_k cands.length)
      [argmaxQ (cands.map (fun c => c.2))]).map
      (fun i => cands.getD i dummyCand)

theorem getD_range_map {β : Type} (f : Nat → β) (n i : Nat) (d : β)
    (h : i < n) : (((List.range n).map f).getD i d) = f i := by
  rw [List.getD_eq_getElem?_getD, List.getElem?_map, List.getElem?_range h]
  rfl

theorem mmrScoreList_length (emb : EmbedFn) (lam : ℚ) (cands : List Cand)
    (sel : List Nat) : (mmrScoreList emb lam cands sel).length = cands.length := by
  simp [mmrScoreList]

theorem mmrScoreList_getD_mem (emb : EmbedFn) (lam : ℚ) (cands : List Cand)
    (sel : List Nat) (i : Nat) (hi : i < cands.length) (hmem : i ∈ sel) :
    (mmrScoreList emb lam cands sel).getD i ⊥ = ⊥ := by
  rw [mmrScoreList, getD_range_map _ _ _ _ hi, if_pos hmem]

theorem mmrScoreList_getD_notmem (emb : EmbedFn) (lam : ℚ) (cands : List Cand)
    (sel : List Nat) (i : Nat) (hi : i < cands.length) (hmem : i ∉ sel) :
    ∃ v : ℝ, (mmrScoreList emb lam cands sel).getD i ⊥ = (v : WithBot ℝ) := by
  rw [mmrScoreList, getD_range_map _ _ _ _ hi, if_neg hmem]
  exact ⟨_, rfl⟩

theorem nodup_length_le {α : Type} [DecidableEq α] (l m : List α)
    (h : l.Nodup) (hs : l ⊆ m) : l.length ≤ m.length := by
  calc l.length = l.toFinset.card := (List.toFinset_card_of_nodup h).symm
    _ ≤ m.toFinset.card := Finset.card_le_card (fun a ha =>
        List.mem_toFinset.mpr (hs (List.mem_toFinset.mp ha)))
    _ ≤ m.length := m.toFinset_card_le

theorem mmrLoop_length (emb : EmbedFn) (lam : ℚ) (cands : List Cand) (k : Nat)
    (hk : k ≤ cands.length) :
    ∀ (fuel : Nat) (sel : List Nat), sel.Nodup →
      (∀ i ∈ sel, i < cands.length) → sel.length ≤ k →
      k ≤ sel.length + fuel →
      (mmrLoop emb lam cands k fuel sel).length = k := by
  intro fuel
  induction fuel with
  | zero =>
    intro sel _ _ hle hge
    rw [mmrLoop]
    omega
  | succ fuel ih =>
    intro sel hnd hbound hle hge
    rw [mmrLoop]
    by_cases hlt : sel.length < k
    · rw [if_pos hlt]
      have hex : ∃ i, i < cands.length ∧ i ∉ sel := by
        by_contra hall
        push_neg at hall
        have hsub : List.range cands.length ⊆ sel := by
          intro i hi
          exact hall i (List.mem_range.mp hi)
        have := nodup_length_le _ _ (List.nodup_range _) hsub
        rw [List.length_range] at this
        omega
      obtain ⟨i0, hi0, hni0⟩ := hex
      obtain ⟨v, hv⟩ := mmrScoreList_getD_notmem emb lam cands sel i0 hi0 hni0
      have hlen0 : (mmrScoreList emb lam cands sel).length = cands.length :=
        mmrScoreList_length emb lam cands sel
      have hmax := argmaxW_spec (mmrScoreList emb lam cands sel) i0
        (by rw [hlen0]; exact hi0)
      rw [hv] at hmax
      have hnb : (mmrScoreList emb lam cands sel).getD
          (argmaxW (mmrScoreList emb lam cands sel)) ⊥ ≠ ⊥ := by
        intro hb
        rw [hb] at hmax
        exact (WithBot.not_coe_le_bot v) hmax
      rw [if_neg hnb]
      have hne : mmrScoreList emb lam cands sel ≠ [] := by
        intro he
        rw [he] at hlen0
        simp at hlen0
        omega
      have hnextlt : argmaxW (mmrScoreList emb lam cands sel) < cands.length := by
        have := argmaxW_lt_length _ hne
        rwa [hlen0] at this
      have hnextnot : argmaxW (mmrScoreList emb lam cands sel) ∉ sel := by
        intro hmem
        exact hnb (mmrScoreList_getD_mem emb lam cands sel _ hnextlt hmem)
      refine ih (sel ++ [argmaxW (mmrScoreList emb lam cands sel)]) ?_ ?_ ?_ ?_
      · rw [List.nodup_append]
        exact ⟨hnd, List.nodup_singleton _, by
          intro a ha hb
          rw [List.mem_singleton] at hb
          rw [hb] at ha
          exact hnextnot ha⟩
      · intro i hi
        rcases List.mem_append.mp hi with h | h
        · exact hbound i h
        · rw [List.mem_singleton] at h
          rw [h]
          exact hnextlt
      · rw [List.length_append, List.length_singleton]
        omega
      · rw [List.length_append, List.length_singleton]
        omega
    · rw [if_neg hlt]
      omega

/-- The length of the MMR output: exactly `min mmr_k n` for nonempty
candidate lists. -/
theorem mmr_selection_length (emb : EmbedFn) (cands : List Cand) (mmr_k : Nat)
    (lam : ℚ) (h : cands ≠ []) :
    (mmr_selection emb cands mmr_k lam).length = min mmr_k cands.length := by
  unfold mmr_selection
  by_cases hk : min mmr_k cands.length = 0
  · rw [if_pos hk, hk]
    rfl
  · rw [if_neg hk]
    rw [List.length_map]
    have hn : cands.map (fun c => c.2) ≠ [] := by
      intro he
      exact h (List.map_eq_nil.mp he)
    have hseed : argmaxQ (cands.map (fun c => c.2)) < cands.length := by
      have := argmaxQ_lt_length _ hn
      rwa [List.length_map] at this
    exact mmrLoop_length emb lam cands _ (min_le_right _ _) _ _
      (List.nodup_singleton _)
      (by intro i hi; rw [List.mem_singleton] at hi; rw [hi]; exact hseed)
      (by simp; omega)
      (by simp)

end Retr

namespace Retr

/-! ### `adaptive_retrieval`: the full pipeline -/

/-- The candidate source: hybrid fusion when hybrid mode is on and the BM25
index was built, the plain dense search otherwise. -/
noncomputable def retrieveCandidates (r : Retriever) (query : String) : List Cand :=
  match r.config.use_hybrid, r.bm25 with
  | true, some b => hybridSearch r.vs b r.corpusDocs query r.config
  | _, _ => r.vs.search query r.config.base_k

/-- `adaptive_retrieval`: candidates → threshold filter → (at most one)
expansion → dedup → MMR.  Note the expansion always uses the plain dense
`search`, also when the candidates came from hybrid fusion. -/
noncomputable def adaptive_retrieval (r : Retriever) (query : String) : List Cand :=
  let expanded := expandStep r.vs.search query r.config
    (filterByThreshold r.config (retrieveCandidates r query))
  if expanded = [] then []
  else
    let deduped := deduplicate_chunks r.embeddings r.config.dedupe_threshold
      expanded
    if deduped = [] then []
    else mmr_selection r.embeddings deduped r.config.mmr_k r.config.mmr_lambda

/-- C9: for every non-empty candidate list, `mmr_selection` returns exactly
`min(mmr_k, n)` results — the `-inf` early-termination break is unreachable
because `-inf` is assigned only to already-selected indices — and
consequently the retriever's public output never contains more than `mmr_k`
documents. -/
theorem mmr_exact_count :
    (∀ (emb : EmbedFn) (cands : List Cand) (mmr_k : Nat) (lam : ℚ),
      cands ≠ [] →
      (mmr_selection emb cands mmr_k lam).length = min mmr_k cands.length) ∧
    (∀ (r : Retriever) (q : String),
      (adaptive_retrieval r q).length ≤ r.config.mmr_k) := by
  constructor
  · exact fun emb cands mmr_k lam h => mmr_selection_length emb cands mmr_k lam h
  · intro r q
    unfold adaptive_retrieval
    by_cases h1 : expandStep r.vs.search q r.config
        (filterByThreshold r.config (retrieveCandidates r q)) = []
    · simp [h1]
    · simp only [if_neg h1]
      by_cases h2 : deduplicate_chunks r.embeddings r.config.dedupe_threshold
          (expandStep r.vs.search q r.config
            (filterByThreshold r.config (retrieveCandidates r q))) = []
      · simp [h2]
      · simp only [if_neg h2]
        rw [mmr_selection_length _ _ _ _ h2]
        exact min_le_left _ _

/-- Witness for `mmr_exact_count` at a two-candidate list and `mmr_k = 5`. -/
theorem mmr_exact_count_witness :
    (([((⟨1, "u"⟩ : Doc), (1 : ℚ)), (⟨2, "u"⟩, 0)] : List Cand) ≠ []) ∧
    (mmr_selection (fun _ => [1, 0])
      [(⟨1, "u"⟩, 1), (⟨2, "u"⟩, 0)] 5 (3/5)).length = min 5 2 := by
  refine ⟨by simp, ?_⟩
  exact mmr_exact_count.1 (fun _ => [1, 0])
    [(⟨1, "u"⟩, 1), (⟨2, "u"⟩, 0)] 5 (3/5) (by simp)

theorem cosSim_nil_left (b : List ℚ) : cosSim [] b = 0 := by
  unfold cosSim
  rw [show normSq ([] : List ℚ) = 0 from rfl]
  push_cast
  rw [Real.sqrt_zero, zero_mul, if_pos rfl]

/-- C6 (amended): MMR selection stops exactly when `min(mmr_k, n)` candidates
have been selected or the best remaining score is `-inf` — and `-inf` is
assigned only to already-selected indices, so candidates whose MMR scores are
merely non-positive (finite) are still selected.  Formally: when every
relevance is ≤ 0, `0 ≤ λ ≤ 1` and all pairwise similarities are nonnegative,
every non-seed score is ≤ 0, yet selection still returns exactly
`min(mmr_k, n)` candidates instead of stopping after the seed. -/
theorem mmr_nonpositive_still_selects (emb : EmbedFn) (cands : List Cand)
    (mmr_k : Nat) (lam : ℚ) (hne : cands ≠ [])
    (hrel : ∀ c ∈ cands, c.2 ≤ 0) (hlam0 : 0 ≤ lam) (hlam1 : lam ≤ 1)
    (hsim : ∀ i j : Nat,
      0 ≤ cosSim ((cands.map (fun c => emb c.1.content)).getD i [])
        ((cands.map (fun c => emb c.1.content)).getD j [])) :
    (∀ (sel : List Nat) (i : Nat), i < cands.length → i ∉ sel →
      ∃ v : ℝ, (mmrScoreList emb lam cands sel).getD i ⊥ = (v : WithBot ℝ) ∧
        v ≤ 0) ∧
    (mmr_selection emb cands mmr_k lam).length = min mmr_k cands.length := by
  constructor
  · intro sel i hi hni
    rw [mmrScoreList, getD_range_map _ _ _ _ hi, if_neg hni]
    refine ⟨_, rfl, ?_⟩
    have hi' : i < (cands.map (fun c => c.2)).length := by simpa using hi
    have hrel_i : ((cands.map (fun c => c.2)).getD i 0) ≤ 0 := by
      rw [List.getD_eq_getElem?_getD, List.getElem?_eq_getElem hi']
      simp only [List.getElem_map, Option.getD_some]
      exact hrel _ (List.getElem_mem _)
    have hmax : 0 ≤ ((sel.map (fun j =>
        cosSim ((cands.map (fun c => emb c.1.content)).getD i [])
          ((cands.map (fun c => emb c.1.content)).getD j []))).max?.getD 0) := by
      cases hm : (sel.map (fun j =>
          cosSim ((cands.map (fun c => emb c.1.content)).getD i [])
            ((cands.map (fun c => emb c.1.content)).getD j []))).max? with
      | none => simp
      | some m =>
        have hmem := List.max?_mem max_choice hm
        obtain ⟨j, _, hfj⟩ := List.mem_map.mp hmem
        simp only [Option.getD_some]
        rw [← hfj]
        exact hsim i j
    have hl0 : (0 : ℝ) ≤ ((lam : ℚ) : ℝ) := by exact_mod_cast hlam0
    have hl1 : ((lam : ℚ) : ℝ) ≤ 1 := by exact_mod_cast hlam1
    have hr0 : (((cands.map (fun c => c.2)).getD i 0 : ℚ) : ℝ) ≤ 0 := by
      exact_mod_cast hrel_i
    nlinarith
  · exact mmr_selection_length emb cands mmr_k lam hne

end Retr

namespace Retr

theorem cosSim_nil_right (a : List ℚ) : cosSim a [] = 0 := by
  unfold cosSim
  rw [show normSq ([] : List ℚ) = 0 from rfl]
  push_cast
  rw [Real.sqrt_zero, mul_zero, if_pos rfl]

/-- An embedding collaborator mapping every text to the unit vector. -/
def embU : EmbedFn := fun _ => [1, 0]

theorem simV : cosSim [1, 0] [1, 0] = 1 := by
  rw [cosSim_eq [1, 0] [1, 0] 1 1 (by norm_num [normSq, dotQ])
    (by norm_num [normSq, dotQ]) (by norm_num) (by norm_num) (by norm_num)]
  norm_num [dotQ]

theorem simUU : cosSim (embU "u") (embU "u") = 1 := simV

/-- Witness for `mmr_nonpositive_still_selects` on two identical vectors with
relevances 0 and -1. -/
theorem mmr_nonpositive_still_selects_witness :
    (([((⟨1, "u"⟩ : Doc), (0 : ℚ)), (⟨2, "u"⟩, -1)] : List Cand) ≠ [] ∧
      (∀ c ∈ ([((⟨1, "u"⟩ : Doc), (0 : ℚ)), (⟨2, "u"⟩, -1)] : List Cand),
        c.2 ≤ 0) ∧
      (0 : ℚ) ≤ 3/5 ∧ (3/5 : ℚ) ≤ 1) ∧
    (mmr_selection embU [(⟨1, "u"⟩, 0), (⟨2, "u"⟩, -1)] 2 (3/5)).length =
      min 2 2 := by
  have hrel : ∀ c ∈ ([((⟨1, "u"⟩ : Doc), (0 : ℚ)), (⟨2, "u"⟩, -1)] : List Cand),
      c.2 ≤ 0 := by
    intro c hc
    rcases List.mem_cons.mp hc with h | h
    · rw [h]
    · rw [List.mem_singleton] at h; rw [h]; norm_num
  have hsim : ∀ i j : Nat,
      0 ≤ cosSim
        ((([((⟨1, "u"⟩ : Doc), (0 : ℚ)), (⟨2, "u"⟩, -1)] : List Cand).map
          (fun c => embU c.1.content)).getD i [])
        ((([((⟨1, "u"⟩ : Doc), (0 : ℚ)), (⟨2, "u"⟩, -1)] : List Cand).map
          (fun c => embU c.1.content)).getD j []) := by
    have hv : ∀ m : Nat,
        ((([((⟨1, "u"⟩ : Doc), (0 : ℚ)), (⟨2, "u"⟩, -1)] : List Cand).map
          (fun c => embU c.1.content)).getD m []) =
        if m < 2 then [1, 0] else [] := by
      intro m
      by_cases hm : m < 2
      · rw [if_pos hm]
        interval_cases m <;> rfl
      · rw [if_neg hm]
        apply List.getD_eq_default
        simpa using Nat.le_of_not_lt hm
    intro i j
    rw [hv i, hv j]
    by_cases hi : i < 2 <;> by_cases hj : j < 2
    · rw [if_pos hi, if_pos hj, simV]; norm_num
    · rw [if_pos hi, if_neg hj, cosSim_nil_right]
    · rw [if_neg hi, if_pos hj, cosSim_nil_left]
    · rw [if_neg hi, if_neg hj, cosSim_nil_left]
  refine ⟨⟨by simp, hrel, by norm_num, by norm_num⟩, ?_⟩
  exact (mmr_nonpositive_still_selects embU
    [(⟨1, "u"⟩, 0), (⟨2, "u"⟩, -1)] 2 (3/5) (by simp) hrel
    (by norm_num) (by norm_num) hsim).2

theorem c6scores :
    mmrScoreList embU (3/5) [(⟨1, "u"⟩, 1), (⟨2, "u"⟩, 0)] [0] =
      [⊥, ((-(2/5) : ℝ) : WithBot ℝ)] := by
  unfold mmrScoreList
  rw [show ([((⟨1, "u"⟩ : Doc), (1 : ℚ)), (⟨2, "u"⟩, 0)] : List Cand).length = 2
    from rfl]
  rw [show List.range 2 = [0, 1] from rfl]
  simp only [List.map_cons, List.map_nil]
  rw [if_pos (by simp), if_neg (by simp)]
  congr 1
  congr 1
  rw [show ([embU "u", embU "u"].getD 1 ([] : List ℚ)) = [1, 0] from rfl,
    show ([embU "u", embU "u"].getD 0 ([] : List ℚ)) = [1, 0] from rfl,
    show (([1, 0] : List ℚ).getD 1 0) = 0 from rfl]
  simp only [simV]
  norm_num [List.max?]

theorem c6argmax : argmaxW [⊥, ((-(2/5) : ℝ) : WithBot ℝ)] = 1 := by
  rw [argmaxW]
  rw [show argmaxW [((-(2/5) : ℝ) : WithBot ℝ)] = 0 by
    rw [argmaxW, argmaxW]
    simp]
  simp

theorem c6loop :
    mmrLoop embU (3/5) [(⟨1, "u"⟩, 1), (⟨2, "u"⟩, 0)] 2 2 [0] = [0, 1] := by
  rw [show (2 : Nat) = 1 + 1 from rfl]
  rw [mmrLoop]
  rw [if_pos (by norm_num)]
  rw [c6scores, c6argmax]
  rw [if_neg (by simp)]
  rw [mmrLoop]
  rw [if_neg (by norm_num)]
  rfl

/-- Counterexample to C6 as stated: two candidates with identical embeddings
and relevances 1 and 0, `mmr_k = 2`, `λ = 3/5`.  After the seed, the only
unselected candidate's MMR score is `3/5·0 − 2/5·1 = −2/5 < 0`, yet the code
selects it (the loop breaks only on `-inf`), so the output has 2 elements —
the claim's "no further candidate is selected" predicts 1. -/
theorem mmr_break_unreachable_counterexample :
    mmr_selection embU [(⟨1, "u"⟩, 1), (⟨2, "u"⟩, 0)] 2 (3/5) =
      [(⟨1, "u"⟩, 1), (⟨2, "u"⟩, 0)] ∧
    ((3/5 : ℚ) : ℝ) * ((0 : ℚ) : ℝ) -
      (1 - ((3/5 : ℚ) : ℝ)) * cosSim (embU "u") (embU "u") < 0 := by
  constructor
  · unfold mmr_selection
    rw [if_neg (by norm_num)]
    rw [show argmaxQ (([((⟨1, "u"⟩ : Doc), (1 : ℚ)), (⟨2, "u"⟩, 0)] :
        List Cand).map (fun c => c.2)) = 0 by
      rw [show ([((⟨1, "u"⟩ : Doc), (1 : ℚ)), (⟨2, "u"⟩, 0)] : List Cand).map
          (fun c => c.2) = [1, 0] from rfl]
      rw [argmaxQ, argmaxQ, argmaxQ]
      norm_num]
    rw [show min 2 ([((⟨1, "u"⟩ : Doc), (1 : ℚ)), (⟨2, "u"⟩, 0)] :
        List Cand).length = 2 from rfl]
    rw [c6loop]
    rfl
  · rw [simUU]
    norm_num

end Retr

namespace Retr

/-- The dense-only pipeline: exactly `adaptive_retrieval` with the hybrid
branch skipped.  Its arguments show everything a dense-mode call consults:
the `search` callable, the embedding function and the configuration — not
the BM25 builder, the corpus extraction, or the stored index. -/
noncomputable def denseRetrieval (search : String → Nat → List Cand)
    (emb : EmbedFn) (cfg : AdaptiveRetrieverConfig) (q : String) : List Cand :=
  let expanded := expandStep search q cfg
    (filterByThreshold cfg (search q cfg.base_k))
  if expanded = [] then []
  else
    let deduped := deduplicate_chunks emb cfg.dedupe_threshold expanded
    if deduped = [] then []
    else mmr_selection emb deduped cfg.mmr_k cfg.mmr_lambda

theorem adaptive_retrieval_dense_mode (r : Retriever) (h : r.bm25 = none)
    (q : String) :
    adaptive_retrieval r q = denseRetrieval r.vs.search r.embeddings r.config q := by
  unfold adaptive_retrieval denseRetrieval retrieveCandidates
  rw [h]
  cases hu : r.config.use_hybrid <;> rfl

/-- C7: when the BM25 index fails to build at construction (the corpus
extraction or the index construction raises, or the corpus is empty), the
failure is recovered locally: the engine is still constructed, holds no
lexical index, and every subsequent retrieval call for that engine's
lifetime (the engine record is immutable) runs the dense-only pipeline —
which is a total function (no per-call error is surfaced) and consults only
the dense `search` callable, never retrying the index build.  The engine
behaves identically to one constructed with hybrid mode disabled. -/
theorem bm25_failure_dense_only (vs : VSModel) (emb : EmbedFn)
    (cfg : AdaptiveRetrieverConfig) (hcfg : cfg.use_hybrid = true)
    (hfail : (initializeBm25 vs).2 = none) :
    (AdaptiveRetriever.init vs emb cfg).bm25 = none ∧
    (∀ q, adaptive_retrieval (AdaptiveRetriever.init vs emb cfg) q =
      denseRetrieval vs.search emb cfg q) ∧
    (∀ q, adaptive_retrieval (AdaptiveRetriever.init vs emb cfg) q =
      adaptive_retrieval (AdaptiveRetriever.init vs emb
        { cfg with use_hybrid := false }) q) := by
  have hb : (AdaptiveRetriever.init vs emb cfg).bm25 = none := by
    unfold AdaptiveRetriever.init
    simp only [hcfg, if_true]
    exact hfail
  refine ⟨hb, fun q => adaptive_retrieval_dense_mode _ hb q, fun q => ?_⟩
  rw [adaptive_retrieval_dense_mode _ hb q,
    adaptive_retrieval_dense_mode _ (by rfl) q]
  rfl

def c7vs : VSModel := ⟨fun _ _ => [], none, fun _ => none⟩

/-- Witness for `bm25_failure_dense_only`: a vectorstore whose corpus
extraction raises, under the default (hybrid-enabled) configuration. -/
theorem bm25_failure_dense_only_witness :
    (({} : AdaptiveRetrieverConfig).use_hybrid = true ∧
      (initializeBm25 c7vs).2 = none) ∧
    (AdaptiveRetriever.init c7vs embU {}).bm25 = none ∧
    adaptive_retrieval (AdaptiveRetriever.init c7vs embU {}) "query" =
      denseRetrieval c7vs.search embU {} "query" := by
  refine ⟨⟨rfl, rfl⟩, ?_, ?_⟩
  · exact (bm25_failure_dense_only c7vs embU {} rfl rfl).1
  · exact (bm25_failure_dense_only c7vs embU {} rfl rfl).2.1 "query"

end Retr
